import Mathlib

/-!
Verification of the EXP compare/translate utility (src/app.py and its variant
src/application.py).

The Python source is shallowly embedded on `List Char` / `String`.  Each Python
regular-expression operation is embedded as a dedicated scanner that realises
the leftmost, non-overlapping match-and-continue semantics of `re.sub` /
`re.search` for that particular pattern.  Scanners whose recursion is not
structural take an explicit fuel argument (callers pass `length + 1`, which is
always sufficient because every step consumes at least one character); a
scanner that runs out of fuel returns its input unchanged.

The diff engine used by the application is `difflib.SequenceMatcher`, a Python
standard-library dependency whose code is not part of this repository.  It is
modelled from its documented algorithm (which §4.4 of the spec restates):
recursive longest-matching-block decomposition, ties broken by the earliest
start in the first sequence and then in the second, without the junk
heuristic.  The properties proved about it do not depend on which maximal
block the tie-break selects.
-/

set_option maxHeartbeats 1000000

set_option maxRecDepth 4000

namespace ExpCompare

/-- Character test for the Python regex class `\s`, ASCII range: space, tab,
newline, carriage return, vertical tab, form feed. -/
def isPySpace (c : Char) : Bool :=
  decide (c.toNat = 32 ∨ c.toNat = 9 ∨ c.toNat = 10 ∨ c.toNat = 13 ∨ c.toNat = 11 ∨ c.toNat = 12)

/-- Character test for the Python regex class `\w`, ASCII range: letters,
digits and underscore. -/
def isWordChar (c : Char) : Bool :=
  decide ((97 ≤ c.toNat ∧ c.toNat ≤ 122) ∨ (65 ≤ c.toNat ∧ c.toNat ≤ 90) ∨
    (48 ≤ c.toNat ∧ c.toNat ≤ 57) ∨ c.toNat = 95)

/-- Character test for the Python regex class `\d`, ASCII digits. -/
def isDigitChar (c : Char) : Bool :=
  decide (48 ≤ c.toNat ∧ c.toNat ≤ 57)

/-- Character test for an ASCII letter or underscore (first character of an
identifier token in the explainer's vocabulary regex). -/
def isIdentStart (c : Char) : Bool :=
  decide ((97 ≤ c.toNat ∧ c.toNat ≤ 122) ∨ (65 ≤ c.toNat ∧ c.toNat ≤ 90) ∨ c.toNat = 95)

/-- ASCII lower-casing of a single character, as Python `str.lower` acts on
the ASCII subset (the inputs handled by this tool). -/
def lowerChar (c : Char) : Char :=
  if 65 ≤ c.toNat ∧ c.toNat ≤ 90 then Char.ofNat (c.toNat + 32) else c

/-- Lower-casing of a character list (Python `str.lower`). -/
def lowerL (l : List Char) : List Char :=
  l.map lowerChar

theorem toNat_ofNat_valid {n : Nat} (h : n.isValidChar) : (Char.ofNat n).toNat = n := by
  rw [Char.ofNat, dif_pos h]
  simp [Char.ofNatAux, Char.toNat, UInt32.toNat, BitVec.ofNatLt]

theorem lowerChar_toNat_of_upper {c : Char} (h : 65 ≤ c.toNat ∧ c.toNat ≤ 90) :
    (lowerChar c).toNat = c.toNat + 32 := by
  have hv : (c.toNat + 32).isValidChar := Or.inl (by omega)
  simp only [lowerChar, if_pos h]
  exact toNat_ofNat_valid hv

theorem lowerChar_eq_self_of_not_upper {c : Char} (h : ¬ (65 ≤ c.toNat ∧ c.toNat ≤ 90)) :
    lowerChar c = c := by
  simp only [lowerChar, if_neg h]

theorem lowerChar_idem (c : Char) : lowerChar (lowerChar c) = lowerChar c := by
  by_cases h : 65 ≤ c.toNat ∧ c.toNat ≤ 90
  · have h1 : (lowerChar c).toNat = c.toNat + 32 := lowerChar_toNat_of_upper h
    exact lowerChar_eq_self_of_not_upper (by omega)
  · rw [lowerChar_eq_self_of_not_upper h, lowerChar_eq_self_of_not_upper h]

theorem isPySpace_lowerChar (c : Char) : isPySpace (lowerChar c) = isPySpace c := by
  by_cases h : 65 ≤ c.toNat ∧ c.toNat ≤ 90
  · have h1 : (lowerChar c).toNat = c.toNat + 32 := lowerChar_toNat_of_upper h
    simp only [isPySpace, h1, decide_eq_decide]
    omega
  · rw [lowerChar_eq_self_of_not_upper h]

/-- Decidable test for one list being a prefix of another, used to express
occurrences of a literal pattern. -/
def matchHead : List Char → List Char → Bool
  | [], _ => true
  | _ :: _, [] => false
  | p :: ps, c :: cs => decide (p = c) && matchHead ps cs

/-- Decidable test for a contiguous occurrence of `pat` inside a list. -/
def hasSub (pat : List Char) : List Char → Bool
  | [] => matchHead pat []
  | c :: rest => matchHead pat (c :: rest) || hasSub pat rest

theorem hasSub_tail {pat : List Char} {c : Char} {rest : List Char}
    (h : hasSub pat (c :: rest) = false) : hasSub pat rest = false := by
  simp only [hasSub, Bool.or_eq_false_iff] at h
  exact h.2

-- ---------------------------------------------------------------------------
-- strip_sql_comments (src/app.py lines 27-30, src/application.py lines 41-44)
-- ---------------------------------------------------------------------------

/-- Scanner for `re.sub(r"--.*?$", "", sql, flags=re.MULTILINE)`: from each
`--` the rest of the line is dropped; the newline itself is kept (the `$`
anchor is zero-width).  The Boolean state records whether the scanner is
inside the dropped tail of a line. -/
def stripLineAux : Bool → List Char → List Char
  | _, [] => []
  | true, c :: rest => if c = '\n' then c :: stripLineAux false rest else stripLineAux true rest
  | false, [c] => [c]
  | false, c :: d :: rest =>
      if c = '-' ∧ d = '-' then stripLineAux true rest
      else c :: stripLineAux false (d :: rest)

/-- Line-comment removal pass of `strip_sql_comments`. -/
def stripLine (l : List Char) : List Char :=
  stripLineAux false l

/-- Remainder of the input after the first `*/`, if one exists; realises the
lazy `.*?\*/` tail of the block-comment pattern. -/
def dropToClose : List Char → Option (List Char)
  | [] => none
  | [_] => none
  | c :: d :: rest => if c = '*' ∧ d = '/' then some rest else dropToClose (d :: rest)

/-- Scanner for `re.sub(r"/\*.*?\*/", "", sql, flags=re.DOTALL)`: at each
`/*`, if a later `*/` exists the whole span through that first `*/` is
dropped and scanning resumes after it; if no close marker exists the regex
does not match there, the `/` is kept and scanning resumes at the `*`. -/
def stripBlockAux : Nat → List Char → List Char
  | 0, l => l
  | _ + 1, [] => []
  | _ + 1, [c] => [c]
  | fuel + 1, c :: d :: rest =>
      if c = '/' ∧ d = '*' then
        match dropToClose rest with
        | some rest2 => stripBlockAux fuel rest2
        | none => c :: stripBlockAux fuel (d :: rest)
      else c :: stripBlockAux fuel (d :: rest)

/-- Block-comment removal pass of `strip_sql_comments`. -/
def stripBlock (l : List Char) : List Char :=
  stripBlockAux (l.length + 1) l

/-- Embedding of `strip_sql_comments` (src/app.py lines 27-30): the
line-comment pass runs first, then the block-comment pass. -/
def strip_sql_comments (s : String) : String :=
  ⟨stripBlock (stripLine s.data)⟩

/-- The close marker `*/` as a character list. -/
def closeMark : List Char :=
  ['*', '/']

theorem not_close_of_matchHead_false {c d : Char} {rest : List Char}
    (h : matchHead closeMark (c :: d :: rest) = false) : ¬ (c = '*' ∧ d = '/') := by
  rintro ⟨rfl, rfl⟩
  simp [closeMark, matchHead] at h

theorem dropToClose_eq_none_of_no_close :
    ∀ {l : List Char}, hasSub closeMark l = false → dropToClose l = none
  | [], _ => rfl
  | [c], _ => rfl
  | c :: d :: rest, h => by
      have h0 := h
      rw [hasSub, Bool.or_eq_false_iff] at h0
      simp only [dropToClose, if_neg (not_close_of_matchHead_false h0.1)]
      exact dropToClose_eq_none_of_no_close h0.2

theorem stripBlockAux_of_no_close (fuel : Nat) :
    ∀ {l : List Char}, hasSub closeMark l = false → stripBlockAux fuel l = l := by
  induction fuel with
  | zero => intro l _; rfl
  | succ n ih =>
      intro l h
      match l with
      | [] => rfl
      | [c] => rfl
      | c :: d :: rest =>
          have h2 : hasSub closeMark (d :: rest) = false := hasSub_tail h
          by_cases hcd : c = '/' ∧ d = '*'
          · have hno : dropToClose rest = none :=
              dropToClose_eq_none_of_no_close (hasSub_tail h2)
            simp only [stripBlockAux, if_pos hcd, hno]
            rw [ih h2]
          · simp only [stripBlockAux, if_neg hcd]
            rw [ih h2]

theorem stripBlock_of_no_close {l : List Char} (h : hasSub closeMark l = false) :
    stripBlock l = l :=
  stripBlockAux_of_no_close _ h

theorem hasSub_cons_of {pat : List Char} (c : Char) {rest : List Char}
    (h : hasSub pat rest = true) : hasSub pat (c :: rest) = true := by
  simp [hasSub, h]

theorem hasSub_of_matchHead {pat l : List Char} (h : matchHead pat l = true) :
    hasSub pat l = true := by
  cases l with
  | nil => simpa [hasSub] using h
  | cons c cs => simp [hasSub, h]

theorem hasSub_close_single (c : Char) : hasSub closeMark [c] = false := by
  simp [hasSub, closeMark, matchHead]

theorem stripLineAux_true_head (l : List Char) :
    stripLineAux true l = [] ∨ ∃ t, stripLineAux true l = '\n' :: t := by
  induction l with
  | nil => exact Or.inl rfl
  | cons c rest ih =>
      by_cases hc : c = '\n'
      · subst hc
        exact Or.inr ⟨stripLineAux false rest, by simp [stripLineAux]⟩
      · simpa [stripLineAux, hc] using ih

theorem stripLineAux_no_new_close :
    ∀ (b : Bool) (l : List Char), hasSub closeMark (stripLineAux b l) = true →
      hasSub closeMark l = true
  | _, [], h => by simpa [stripLineAux] using h
  | true, c :: rest, h => by
      by_cases hc : c = '\n'
      · subst hc
        rw [show stripLineAux true ('\n' :: rest) = '\n' :: stripLineAux false rest from rfl] at h
        rw [hasSub, Bool.or_eq_true] at h
        rcases h with h | h
        · simp [closeMark, matchHead] at h
        · exact hasSub_cons_of _ (stripLineAux_no_new_close false rest h)
      · rw [show stripLineAux true (c :: rest) = stripLineAux true rest by
          simp [stripLineAux, hc]] at h
        exact hasSub_cons_of _ (stripLineAux_no_new_close true rest h)
  | false, [c], h => by
      rw [show stripLineAux false [c] = [c] from rfl] at h
      rw [hasSub_close_single] at h
      exact absurd h (by simp)
  | false, c :: d :: rest, h => by
      by_cases hcd : c = '-' ∧ d = '-'
      · rw [show stripLineAux false (c :: d :: rest) = stripLineAux true rest by
          simp [stripLineAux, if_pos hcd]] at h
        exact hasSub_cons_of _ (hasSub_cons_of _ (stripLineAux_no_new_close true rest h))
      · rw [show stripLineAux false (c :: d :: rest) = c :: stripLineAux false (d :: rest) by
          simp [stripLineAux, if_neg hcd]] at h
        rw [hasSub, Bool.or_eq_true] at h
        rcases h with h | h
        · cases hout : stripLineAux false (d :: rest) with
          | nil => rw [hout] at h; simp [closeMark, matchHead] at h
          | cons e t =>
              rw [hout] at h
              simp only [closeMark, matchHead, Bool.and_eq_true, decide_eq_true_eq] at h
              obtain ⟨hc, he, _⟩ := h
              have hde : e = d ∨ e = '\n' := by
                match d, rest with
                | d, [] =>
                    rw [show stripLineAux false [d] = [d] from rfl] at hout
                    exact Or.inl (by injection hout with h1 _; exact h1.symm)
                | d, e2 :: rest2 =>
                    by_cases hdd : d = '-' ∧ e2 = '-'
                    · rw [show stripLineAux false (d :: e2 :: rest2) = stripLineAux true rest2 by
                        simp [stripLineAux, if_pos hdd]] at hout
                      rcases stripLineAux_true_head rest2 with hh | ⟨t2, hh⟩
                      · rw [hh] at hout; exact absurd hout (by simp)
                      · rw [hh] at hout
                        exact Or.inr (by injection hout with h1 _; exact h1.symm)
                    · rw [show stripLineAux false (d :: e2 :: rest2) =
                          d :: stripLineAux false (e2 :: rest2) by
                        simp [stripLineAux, if_neg hdd]] at hout
                      exact Or.inl (by injection hout with h1 _; exact h1.symm)
              rcases hde with rfl | rfl
              · have hm : matchHead closeMark (c :: e :: rest) = true := by
                  simp only [closeMark, matchHead, Bool.and_eq_true, decide_eq_true_eq]
                  exact ⟨hc, he, trivial⟩
                exact hasSub_of_matchHead hm
              · exact absurd he (by decide)
        · exact hasSub_cons_of _ (stripLineAux_no_new_close false (d :: rest) h)

theorem stripLine_no_close {l : List Char} (h : hasSub closeMark l = false) :
    hasSub closeMark (stripLine l) = false := by
  by_contra hc
  rw [Bool.not_eq_false] at hc
  rw [stripLineAux_no_new_close false l hc] at h
  exact absurd h (by simp)

/-- C2 counterexample: on `a /* b`, whose block comment is unterminated,
`strip_sql_comments` removes nothing at all — in particular it does not
return `a ` as removal to end of document would. -/
theorem C2_counterexample :
    strip_sql_comments "a /* b" = "a /* b" ∧ strip_sql_comments "a /* b" ≠ "a " :=
  ⟨rfl, by decide⟩

/-- C2 (amended): when the text contains no close marker `*/` at all, an
unterminated block comment is left in place: comment stripping performs only
the line-comment pass and removes nothing from the `/*` onward. -/
theorem C2_unterminated_block_kept (s : String) (h : hasSub closeMark s.data = false) :
    strip_sql_comments s = ⟨stripLine s.data⟩ := by
  rw [strip_sql_comments, stripBlock_of_no_close (stripLine_no_close h)]

/-- Witness for C2 at the concrete input `a /* b`. -/
theorem C2_witness :
    hasSub closeMark "a /* b".data = false ∧
    strip_sql_comments "a /* b" = ⟨stripLine "a /* b".data⟩ :=
  ⟨by decide, C2_unterminated_block_kept "a /* b" (by decide)⟩

-- ---------------------------------------------------------------------------
-- normalize_whitespace (src/app.py lines 33-34, src/application.py lines 46-47)
-- ---------------------------------------------------------------------------

/-- Scanner for `re.sub(r"\s+", " ", sql)`: every maximal whitespace run
becomes a single space.  The Boolean state records whether the previous
character belonged to a whitespace run whose space was already emitted. -/
def collapseWSAux : Bool → List Char → List Char
  | _, [] => []
  | pws, c :: rest =>
      if isPySpace c then
        (if pws then collapseWSAux true rest else ' ' :: collapseWSAux true rest)
      else c :: collapseWSAux false rest

/-- Whitespace-run collapsing pass of `normalize_whitespace`. -/
def collapseWS (l : List Char) : List Char :=
  collapseWSAux false l

/-- Python `str.strip()`: leading and trailing whitespace removed. -/
def pyStrip (l : List Char) : List Char :=
  ((l.dropWhile isPySpace).reverse.dropWhile isPySpace).reverse

/-- List-level body of `normalize_whitespace`. -/
def normWS (l : List Char) : List Char :=
  pyStrip (collapseWS l)

/-- Embedding of `normalize_whitespace` (src/app.py lines 33-34): collapse
every whitespace run to one space, then strip both ends. -/
def normalize_whitespace (s : String) : String :=
  ⟨normWS s.data⟩

/-- Canonical-whitespace test: every whitespace character is a single space
that does not follow another whitespace character.  The Boolean state records
whether the previous character was whitespace. -/
def wsCanon : Bool → List Char → Bool
  | _, [] => true
  | pws, c :: rest =>
      if isPySpace c then (decide (c = ' ') && !pws) && wsCanon true rest
      else wsCanon false rest

theorem wsCanon_collapseWSAux : ∀ (l : List Char) (p : Bool),
    wsCanon p (collapseWSAux p l) = true := by
  intro l
  induction l with
  | nil => intro p; rfl
  | cons c rest ih =>
      intro p
      by_cases hc : isPySpace c = true
      · cases p with
        | true => simpa [collapseWSAux, hc] using ih true
        | false =>
            have hsp : isPySpace ' ' = true := by decide
            simp [collapseWSAux, hc, wsCanon, hsp, ih true]
      · simp [collapseWSAux, hc, wsCanon, ih false]

theorem collapseWSAux_of_wsCanon : ∀ (l : List Char) (p : Bool),
    wsCanon p l = true → collapseWSAux p l = l := by
  intro l
  induction l with
  | nil => intro p _; rfl
  | cons c rest ih =>
      intro p h
      by_cases hc : isPySpace c = true
      · rw [wsCanon, if_pos hc] at h
        simp only [Bool.and_eq_true, Bool.not_eq_true', decide_eq_true_eq] at h
        obtain ⟨⟨hsp, hp⟩, hrest⟩ := h
        subst hp
        rw [collapseWSAux, if_pos hc, if_neg (by simp)]
        rw [hsp, ih true hrest]
      · rw [wsCanon, if_neg hc] at h
        simp [collapseWSAux, hc, ih false h]

theorem wsCanon_append_left {l₁ l₂ : List Char} :
    ∀ p : Bool, wsCanon p (l₁ ++ l₂) = true → wsCanon p l₁ = true := by
  induction l₁ with
  | nil => intro p _; rfl
  | cons c rest ih =>
      intro p h
      by_cases hc : isPySpace c = true
      · rw [List.cons_append, wsCanon, if_pos hc] at h
        rw [wsCanon, if_pos hc]
        simp only [Bool.and_eq_true] at h ⊢
        exact ⟨h.1, ih true h.2⟩
      · rw [List.cons_append, wsCanon, if_neg hc] at h
        rw [wsCanon, if_neg hc]
        exact ih false h

theorem dropWhile_head_false {p : Char → Bool} :
    ∀ {l : List Char} {c : Char} {t : List Char}, l.dropWhile p = c :: t → p c = false := by
  intro l
  induction l with
  | nil => intro c t h; simp [List.dropWhile] at h
  | cons a rest ih =>
      intro c t h
      by_cases ha : p a = true
      · rw [List.dropWhile_cons_of_pos ha] at h
        exact ih h
      · rw [List.dropWhile_cons_of_neg ha] at h
        injection h with h1 _
        subst h1
        simpa using ha

theorem dropWhile_idem (p : Char → Bool) (l : List Char) :
    (l.dropWhile p).dropWhile p = l.dropWhile p := by
  cases hd : l.dropWhile p with
  | nil => rfl
  | cons c t => rw [List.dropWhile_cons_of_neg (by simp [dropWhile_head_false hd])]

theorem wsCanon_dropWhile {l : List Char} (h : wsCanon false l = true) :
    wsCanon false (l.dropWhile isPySpace) = true := by
  cases l with
  | nil => rfl
  | cons c rest =>
      by_cases hc : isPySpace c = true
      · rw [List.dropWhile_cons_of_pos hc]
        rw [wsCanon, if_pos hc] at h
        simp only [Bool.and_eq_true] at h
        have hrest := h.2
        cases rest with
        | nil => rfl
        | cons d rest2 =>
            by_cases hd : isPySpace d = true
            · rw [wsCanon, if_pos hd] at hrest
              simp at hrest
            · rw [List.dropWhile_cons_of_neg (by simp [hd])]
              rw [wsCanon, if_neg hd] at hrest ⊢
              exact hrest
      · rw [List.dropWhile_cons_of_neg (by simp [hc])]
        exact h

theorem pyStrip_decomp (l : List Char) :
    ∃ t : List Char, l.dropWhile isPySpace = pyStrip l ++ t := by
  refine ⟨((l.dropWhile isPySpace).reverse.takeWhile isPySpace).reverse, ?_⟩
  have h := List.takeWhile_append_dropWhile isPySpace (l.dropWhile isPySpace).reverse
  calc l.dropWhile isPySpace
      = ((l.dropWhile isPySpace).reverse).reverse := by rw [List.reverse_reverse]
    _ = ((l.dropWhile isPySpace).reverse.takeWhile isPySpace ++
          (l.dropWhile isPySpace).reverse.dropWhile isPySpace).reverse := by rw [h]
    _ = pyStrip l ++ ((l.dropWhile isPySpace).reverse.takeWhile isPySpace).reverse := by
          rw [List.reverse_append]; rfl

theorem wsCanon_pyStrip {l : List Char} (h : wsCanon false l = true) :
    wsCanon false (pyStrip l) = true := by
  obtain ⟨t, ht⟩ := pyStrip_decomp l
  have h1 : wsCanon false (l.dropWhile isPySpace) = true := wsCanon_dropWhile h
  rw [ht] at h1
  exact wsCanon_append_left false h1

theorem pyStrip_idem_aux {l : List Char} : pyStrip (pyStrip l) = pyStrip l := by
  have hld : (pyStrip l).dropWhile isPySpace = pyStrip l := by
    cases hp : pyStrip l with
    | nil => rfl
    | cons c t =>
        obtain ⟨t2, ht2⟩ := pyStrip_decomp l
        rw [hp] at ht2
        have : isPySpace c = false := dropWhile_head_false (l := l) ht2
        rw [List.dropWhile_cons_of_neg (by simp [this])]
  have hrd : (pyStrip l).reverse.dropWhile isPySpace = (pyStrip l).reverse := by
    rw [pyStrip, List.reverse_reverse, dropWhile_idem]
  rw [pyStrip, hld, hrd, List.reverse_reverse]

theorem normWS_idem (l : List Char) : normWS (normWS l) = normWS l := by
  have hcanon : wsCanon false (normWS l) = true :=
    wsCanon_pyStrip (wsCanon_collapseWSAux l false)
  show pyStrip (collapseWS (normWS l)) = normWS l
  rw [show collapseWS (normWS l) = normWS l from collapseWSAux_of_wsCanon _ false hcanon]
  exact pyStrip_idem_aux

theorem normalize_whitespace_idem (s : String) :
    normalize_whitespace (normalize_whitespace s) = normalize_whitespace s := by
  simp only [normalize_whitespace, normWS_idem]

-- ---------------------------------------------------------------------------
-- remove_identifier_brackets (src/app.py lines 37-39) and
-- apply_schema_mapping (src/app.py lines 42-46, src/application.py 52-56)
-- ---------------------------------------------------------------------------

/-- Lookahead for the delimiter patterns `\[([^\]]+)\]` and `` `([^`]+)` ``:
after an opening delimiter, a non-empty run of characters other than the
closing delimiter followed by the closing delimiter.  Returns the run and the
remainder after the close, or `none` when the pattern cannot match here. -/
def delimMatch (close : Char) (rest : List Char) : Option (List Char × List Char) :=
  let run := rest.takeWhile fun c => !decide (c = close)
  match rest.dropWhile (fun c => !decide (c = close)) with
  | [] => none
  | _ :: after => if run = [] then none else some (run, after)

/-- Scanner for `re.sub` with a delimiter-pair pattern: each match
`opn run close` is replaced by `wrap run`; where the pattern cannot match the
engine advances one character. -/
def unDelimAux (opn close : Char) (wrap : List Char → List Char) :
    Nat → List Char → List Char
  | 0, l => l
  | _ + 1, [] => []
  | fuel + 1, c :: rest =>
      if c = opn then
        match delimMatch close rest with
        | some (run, after) => wrap run ++ unDelimAux opn close wrap fuel after
        | none => c :: unDelimAux opn close wrap fuel rest
      else c :: unDelimAux opn close wrap fuel rest

/-- Embedding of `remove_identifier_brackets` (src/app.py lines 37-39):
`[X]` becomes `X`, then `` `X` `` becomes `X`. -/
def remove_identifier_brackets (s : String) : String :=
  let t := unDelimAux '[' ']' id (s.data.length + 1) s.data
  ⟨unDelimAux '`' '`' id (t.length + 1) t⟩

/-- Case-insensitive prefix test: does the lowered pattern match the head of
the text once the text is lowered? -/
def matchCI : List Char → List Char → Bool
  | [], _ => true
  | _ :: _, [] => false
  | p :: ps, c :: cs => decide (p = lowerChar c) && matchCI ps cs

/-- Behaviour of Python `re.sub` with an empty pattern: the replacement is
inserted at every inter-character position, including both ends. -/
def emptyPatSub (rep : List Char) : List Char → List Char
  | [] => rep
  | c :: rest => rep ++ c :: emptyPatSub rep rest

/-- Scanner for `re.sub(re.escape(src), tgt, s, flags=re.IGNORECASE)` with a
non-empty `src`: `re.escape` makes every pattern character literal, so a
match is exactly a case-insensitive occurrence of `src`; matches are leftmost
and non-overlapping. -/
def replCIAux (pat rep : List Char) : Nat → List Char → List Char
  | 0, l => l
  | _ + 1, [] => []
  | fuel + 1, c :: rest =>
      if matchCI pat (c :: rest) then
        rep ++ replCIAux pat rep fuel ((c :: rest).drop pat.length)
      else c :: replCIAux pat rep fuel rest

/-- One mapping entry applied by `apply_schema_mapping`:
`re.sub(re.escape(src), tgt, s, flags=re.IGNORECASE)`. -/
def replaceCI (src tgt s : String) : String :=
  if src.data = [] then ⟨emptyPatSub tgt.data s.data⟩
  else ⟨replCIAux (lowerL src.data) tgt.data (s.data.length + 1) s.data⟩

/-- Embedding of `apply_schema_mapping` (src/app.py lines 42-46): the entries
are applied sequentially in declared order, each to the result of the
previous one. -/
def apply_schema_mapping (s : String) (mapping : List (String × String)) : String :=
  mapping.foldl (fun acc p => replaceCI p.1 p.2 acc) s

/-- Case-insensitive literal occurrence of `src` inside `s`. -/
def occursCI (src s : String) : Bool :=
  hasSub (lowerL src.data) (lowerL s.data)

theorem matchCI_eq_matchHead_lower (pat : List Char) :
    ∀ l : List Char, matchCI pat l = matchHead pat (lowerL l) := by
  induction pat with
  | nil => intro l; cases l <;> rfl
  | cons p ps ih =>
      intro l
      cases l with
      | nil => rfl
      | cons c cs => simp [matchCI, matchHead, lowerL, ih cs]

theorem replCIAux_of_no_occurrence {pat rep : List Char} :
    ∀ (fuel : Nat) (l : List Char), hasSub pat (lowerL l) = false →
      replCIAux pat rep fuel l = l := by
  intro fuel
  induction fuel with
  | zero => intro l _; rfl
  | succ n ih =>
      intro l h
      cases l with
      | nil => rfl
      | cons c rest =>
          have hm : matchCI pat (c :: rest) = false := by
            rw [matchCI_eq_matchHead_lower]
            have h0 := h
            rw [show lowerL (c :: rest) = lowerChar c :: lowerL rest from rfl] at h0
            rw [hasSub, Bool.or_eq_false_iff] at h0
            exact h0.1
          rw [replCIAux, if_neg (by simp [hm])]
          have h2 : hasSub pat (lowerL rest) = false := by
            have h0 := h
            rw [show lowerL (c :: rest) = lowerChar c :: lowerL rest from rfl] at h0
            exact hasSub_tail h0
          rw [ih rest h2]

/-- C7: the schema mapping applies its entries sequentially in declared order
to the progressively rewritten text, and an entry matches only as a literal,
case-insensitive substring of the current text: when the key has no literal
case-insensitive occurrence, the entry changes nothing (characters such as
`.` or `(` in a key never act as pattern operators). -/
theorem C7_mapping_sequential_and_literal :
    (∀ (src tgt : String) (rest : List (String × String)) (s : String),
        apply_schema_mapping s ((src, tgt) :: rest) =
          apply_schema_mapping (replaceCI src tgt s) rest) ∧
    (∀ src tgt s : String, occursCI src s = false → replaceCI src tgt s = s) := by
  constructor
  · intro src tgt rest s
    rfl
  · intro src tgt s h
    by_cases hsrc : src.data = []
    · exfalso
      rw [occursCI, hsrc] at h
      cases hs : lowerL s.data with
      | nil => rw [hs] at h; simp [hasSub, matchHead, lowerL] at h
      | cons c cs => rw [hs] at h; simp [hasSub, matchHead] at h
    · rw [replaceCI, if_neg hsrc]
      have hno : hasSub (lowerL src.data) (lowerL s.data) = false := h
      rw [replCIAux_of_no_occurrence _ _ hno]

/-- Witness for C7 at concrete inputs: one sequential head step, and the key
`a.c` (whose `.` would match anything if it were a wildcard) leaving the text
`abc` unchanged. -/
theorem C7_witness :
    apply_schema_mapping "select x" [("q", "r")] =
      apply_schema_mapping (replaceCI "q" "r" "select x") [] ∧
    replaceCI "a.c" "Z" "abc" = "abc" :=
  ⟨C7_mapping_sequential_and_literal.1 "q" "r" [] "select x",
   C7_mapping_sequential_and_literal.2 "a.c" "Z" "abc" (by decide)⟩

-- ---------------------------------------------------------------------------
-- normalize_for_compare (src/app.py lines 49-65)
-- ---------------------------------------------------------------------------

/-- Embedding of `normalize_for_compare` (src/app.py lines 49-65): empty
input short-circuits to the empty string; otherwise the enabled transforms
run in the fixed order comments → brackets → mapping → casefold → whitespace. -/
def normalize_for_compare (sql : String)
    (strip_comments_opt casefold collapse_ws drop_brackets : Bool)
    (schema_map : List (String × String)) : String :=
  if sql = "" then ""
  else
    let out1 := if strip_comments_opt then strip_sql_comments sql else sql
    let out2 := if drop_brackets then remove_identifier_brackets out1 else out1
    let out3 := if schema_map.isEmpty then out2 else apply_schema_mapping out2 schema_map
    let out4 := if casefold then ⟨lowerL out3.data⟩ else out3
    if collapse_ws then normalize_whitespace out4 else out4

theorem lowerL_idem (l : List Char) : lowerL (lowerL l) = lowerL l := by
  induction l with
  | nil => rfl
  | cons c rest ih => simp only [lowerL, List.map_cons] at ih ⊢; rw [lowerChar_idem, ih]

theorem mem_collapseWSAux {c : Char} :
    ∀ (p : Bool) (l : List Char), c ∈ collapseWSAux p l → c ∈ l ∨ c = ' ' := by
  intro p l
  induction l generalizing p with
  | nil => intro h; simp [collapseWSAux] at h
  | cons a rest ih =>
      intro h
      by_cases ha : isPySpace a = true
      · rw [collapseWSAux, if_pos ha] at h
        by_cases hp : p = true
        · subst hp
          rw [if_pos rfl] at h
          rcases ih true h with h2 | h2
          · exact Or.inl (List.mem_cons_of_mem a h2)
          · exact Or.inr h2
        · rw [if_neg hp] at h
          rcases List.mem_cons.mp h with h2 | h2
          · exact Or.inr h2
          · rcases ih true h2 with h3 | h3
            · exact Or.inl (List.mem_cons_of_mem a h3)
            · exact Or.inr h3
      · rw [collapseWSAux, if_neg ha] at h
        rcases List.mem_cons.mp h with h2 | h2
        · exact Or.inl (h2 ▸ List.mem_cons_self a rest)
        · rcases ih false h2 with h3 | h3
          · exact Or.inl (List.mem_cons_of_mem a h3)
          · exact Or.inr h3

theorem mem_pyStrip {c : Char} {l : List Char} (h : c ∈ pyStrip l) : c ∈ l := by
  have h1 : c ∈ (l.dropWhile isPySpace).reverse.dropWhile isPySpace := by
    rw [pyStrip] at h
    exact List.mem_reverse.mp h
  have h2 : c ∈ (l.dropWhile isPySpace).reverse :=
    (List.dropWhile_sublist _).mem h1
  have h3 : c ∈ l.dropWhile isPySpace := List.mem_reverse.mp h2
  exact (List.dropWhile_sublist _).mem h3

theorem mem_normWS {c : Char} {l : List Char} (h : c ∈ normWS l) : c ∈ l ∨ c = ' ' :=
  mem_collapseWSAux false l (mem_pyStrip h)

theorem lowerL_eq_self_of_fixed {l : List Char} (h : ∀ c ∈ l, lowerChar c = c) :
    lowerL l = l := by
  induction l with
  | nil => rfl
  | cons c rest ih =>
      rw [show lowerL (c :: rest) = lowerChar c :: lowerL rest from rfl]
      rw [h c (List.mem_cons_self c rest), ih fun d hd => h d (List.mem_cons_of_mem c hd)]

theorem lowerL_normWS_lowerL (l : List Char) :
    lowerL (normWS (lowerL l)) = normWS (lowerL l) := by
  apply lowerL_eq_self_of_fixed
  intro c hc
  rcases mem_normWS hc with h | h
  · rw [lowerL] at h
    obtain ⟨d, _, hd⟩ := List.mem_map.mp h
    rw [← hd]
    exact lowerChar_idem d
  · subst h
    decide

/-- C3 counterexample: with only the schema mapping enabled the entry
`a -> aa` re-fires on its own output; with only comment stripping enabled,
removing one block comment can juxtapose a new `/* ... */` pair; with only
bracket removal enabled, `[[a]]` loses one bracket layer per pass.  In each
case the second normalization differs from the first, refuting idempotence
for arbitrary configuration and mapping. -/
theorem C3_counterexample :
    normalize_for_compare (normalize_for_compare "a" false false false false [("a", "aa")])
        false false false false [("a", "aa")] ≠
      normalize_for_compare "a" false false false false [("a", "aa")] ∧
    normalize_for_compare (normalize_for_compare "x//*c*/*y*/w" true false false false [])
        true false false false [] ≠
      normalize_for_compare "x//*c*/*y*/w" true false false false [] ∧
    normalize_for_compare (normalize_for_compare "[[a]]" false false false true [])
        false false false true [] ≠
      normalize_for_compare "[[a]]" false false false true [] := by
  refine ⟨by decide, by decide, by decide⟩

/-- C3 (amended): normalization is idempotent whenever comment stripping and
bracket removal are disabled and the name mapping is empty; the casefold and
whitespace-collapsing options may be chosen freely.  (Each of the three
excluded transforms can break idempotence, as the counterexample shows.) -/
theorem nfc_simple (x : String) (cf cw : Bool) :
    normalize_for_compare x false cf cw false [] =
      if x = "" then ""
      else if cw then normalize_whitespace (if cf then ⟨lowerL x.data⟩ else x)
      else if cf then ⟨lowerL x.data⟩ else x :=
  rfl

theorem C3_normalize_idem_restricted (x : String) (casefold collapse_ws : Bool) :
    normalize_for_compare (normalize_for_compare x false casefold collapse_ws false [])
        false casefold collapse_ws false [] =
      normalize_for_compare x false casefold collapse_ws false [] := by
  by_cases hx : x = ""
  · subst hx
    rfl
  · have hNx : normalize_for_compare x false casefold collapse_ws false [] =
        (if collapse_ws then normalize_whitespace (if casefold then ⟨lowerL x.data⟩ else x)
         else if casefold then ⟨lowerL x.data⟩ else x) := by
      rw [nfc_simple, if_neg hx]
    rw [hNx]
    by_cases hye : (if collapse_ws then
        normalize_whitespace (if casefold then (⟨lowerL x.data⟩ : String) else x)
        else if casefold then (⟨lowerL x.data⟩ : String) else x) = ""
    · rw [hye]
      rfl
    · rw [nfc_simple, if_neg hye]
      cases casefold with
      | false =>
          cases collapse_ws with
          | false => rfl
          | true => exact normalize_whitespace_idem x
      | true =>
          cases collapse_ws with
          | false =>
              show (⟨lowerL (lowerL x.data)⟩ : String) = ⟨lowerL x.data⟩
              rw [lowerL_idem]
          | true =>
              show normalize_whitespace ⟨lowerL (normWS (lowerL x.data))⟩ =
                ⟨normWS (lowerL x.data)⟩
              rw [lowerL_normWS_lowerL]
              exact normalize_whitespace_idem ⟨lowerL x.data⟩

-- ---------------------------------------------------------------------------
-- Regex-pattern atoms shared by the translator and the explainer
-- ---------------------------------------------------------------------------

/-- One deterministic element of the regex patterns used by the program.
Every pattern in the source is a sequence of these: word boundaries,
case-insensitive literals, single characters, maximal whitespace runs and
maximal digit runs (backtracking can never produce a different match for
such sequences, so deterministic maximal-run matching is faithful). -/
inductive RexAtom where
  | bnd : RexAtom
  | litCI : List Char → RexAtom
  | ch : Char → RexAtom
  | ws0 : RexAtom
  | ws1 : RexAtom
  | digits1 : RexAtom

/-- Word-boundary test `\b` at the position between `prev` and the head of
`l`: true when exactly one side is a word character. -/
def wordBoundaryAt (prev : Option Char) (l : List Char) : Bool :=
  let pw := match prev with | none => false | some c => isWordChar c
  let nw := match l with | [] => false | c :: _ => isWordChar c
  pw != nw

/-- Last character of `m` when non-empty, otherwise the previous context
character; threads the boundary context through a match. -/
def lastOr (prev : Option Char) (m : List Char) : Option Char :=
  match m.getLast? with
  | some c => some c
  | none => prev

/-- Match a sequence of atoms at the head of `l` (with `prev` the character
just before `l` in the whole text).  Returns the matched text and the
remainder. -/
def matchAtoms : List RexAtom → Option Char → List Char → Option (List Char × List Char)
  | [], _, l => some ([], l)
  | .bnd :: ats, prev, l =>
      if wordBoundaryAt prev l then matchAtoms ats prev l else none
  | .litCI w :: ats, prev, l =>
      if matchCI w l then
        match matchAtoms ats (lastOr prev (l.take w.length)) (l.drop w.length) with
        | some (m, r) => some (l.take w.length ++ m, r)
        | none => none
      else none
  | .ch c :: ats, _, l =>
      match l with
      | [] => none
      | d :: rest =>
          if d = c then
            match matchAtoms ats (some d) rest with
            | some (m, r) => some (d :: m, r)
            | none => none
          else none
  | .ws0 :: ats, prev, l =>
      match matchAtoms ats (lastOr prev (l.takeWhile isPySpace)) (l.dropWhile isPySpace) with
      | some (m, r) => some (l.takeWhile isPySpace ++ m, r)
      | none => none
  | .ws1 :: ats, prev, l =>
      if l.takeWhile isPySpace = [] then none
      else
        match matchAtoms ats (lastOr prev (l.takeWhile isPySpace)) (l.dropWhile isPySpace) with
        | some (m, r) => some (l.takeWhile isPySpace ++ m, r)
        | none => none
  | .digits1 :: ats, prev, l =>
      if l.takeWhile isDigitChar = [] then none
      else
        match matchAtoms ats (lastOr prev (l.takeWhile isDigitChar)) (l.dropWhile isDigitChar) with
        | some (m, r) => some (l.takeWhile isDigitChar ++ m, r)
        | none => none

/-- Search (`re.search`): does the atom sequence match at some position?
Scanning tries every position left to right.  The patterns used all require
at least one character, so no match can start at the very end. -/
def searchAtoms (ats : List RexAtom) : Option Char → List Char → Bool
  | prev, [] => (matchAtoms ats prev []).isSome
  | prev, c :: rest =>
      (matchAtoms ats prev (c :: rest)).isSome || searchAtoms ats (some c) rest

/-- Replacement (`re.sub` with a constant replacement): leftmost matches are
replaced and scanning resumes after the matched text, whose last character
supplies the boundary context. -/
def replaceAtomsAux (ats : List RexAtom) (rep : List Char) :
    Nat → Option Char → List Char → List Char
  | 0, _, l => l
  | _ + 1, _, [] => []
  | fuel + 1, prev, c :: rest =>
      match matchAtoms ats prev (c :: rest) with
      | some (m, r) => rep ++ replaceAtomsAux ats rep fuel (lastOr prev m) r
      | none => c :: replaceAtomsAux ats rep fuel (some c) rest

/-- Whole-text replacement wrapper. -/
def replaceAtoms (ats : List RexAtom) (rep : List Char) (l : List Char) : List Char :=
  replaceAtomsAux ats rep (l.length + 1) none l

-- ---------------------------------------------------------------------------
-- t_sql_to_snowflake (src/app.py lines 192-252)
-- ---------------------------------------------------------------------------

/-- Pattern `\[([^\]]+)\]` with replacement `"..."` (the `_bracket_to_quoted`
rewrite, src/app.py lines 201-207). -/
def bracketToQuoted (s : String) : String :=
  ⟨unDelimAux '[' ']' (fun run => '"' :: (run ++ ['"'])) (s.data.length + 1) s.data⟩

/-- Pattern `\bISNULL\s*\(` (src/app.py line 210). -/
def isnullPat : List RexAtom :=
  [.bnd, .litCI "isnull".data, .ws0, .ch '(']

/-- Pattern `\bGETDATE\s*\(\s*\)` (src/app.py line 211). -/
def getdatePat : List RexAtom :=
  [.bnd, .litCI "getdate".data, .ws0, .ch '(', .ws0, .ch ')']

/-- Pattern `\bLEN\s*\(` (src/app.py line 212). -/
def lenPat : List RexAtom :=
  [.bnd, .litCI "len".data, .ws0, .ch '(']

/-- Pattern `\bDATEDIFF\s*\(` (src/app.py line 213). -/
def datediffPat : List RexAtom :=
  [.bnd, .litCI "datediff".data, .ws0, .ch '(']

/-- Pattern `\bWITH\s*\(\s*NOLOCK\s*\)` (src/app.py line 222). -/
def nolockPat : List RexAtom :=
  [.bnd, .litCI "with".data, .ws0, .ch '(', .ws0, .litCI "nolock".data, .ws0, .ch ')']

def replIsnull (s : String) : String :=
  ⟨replaceAtoms isnullPat "COALESCE(".data s.data⟩

def replGetdate (s : String) : String :=
  ⟨replaceAtoms getdatePat "CURRENT_TIMESTAMP".data s.data⟩

def replLen (s : String) : String :=
  ⟨replaceAtoms lenPat "LENGTH(".data s.data⟩

/-- The canonical spelling the DATEDIFF rule rewrites every call to. -/
def ddCanon : List Char :=
  "DATEDIFF(".data

def replDatediff (s : String) : String :=
  ⟨replaceAtoms datediffPat ddCanon s.data⟩

def removeNolock (s : String) : String :=
  ⟨replaceAtoms nolockPat [] s.data⟩

/-- Lazy tail `(.*?)\)` without DOTALL: the shortest run of non-newline
characters before a closing parenthesis.  A newline before any `)` makes the
pattern fail at this position. -/
def lazyToParen : List Char → Option (List Char × List Char)
  | [] => none
  | c :: rest =>
      if c = ')' then some ([], rest)
      else if c = '\n' then none
      else
        match lazyToParen rest with
        | some (e, r) => some (c :: e, r)
        | none => none

/-- Lookahead for `\bCONVERT\s*\(\s*([A-Za-z0-9_]+)\s*,\s*(.*?)\)` (case
insensitive) at the current position: returns the type name, the raw
expression text and the remainder after the closing parenthesis. -/
def convertMatch (prev : Option Char) (l : List Char) : Option (List Char × List Char × List Char) :=
  if wordBoundaryAt prev l ∧ matchCI "convert".data l then
    match (l.drop 7).dropWhile isPySpace with
    | '(' :: l3 =>
        let l4 := l3.dropWhile isPySpace
        let dtype := l4.takeWhile isWordChar
        if dtype = [] then none
        else
          match (l4.dropWhile isWordChar).dropWhile isPySpace with
          | ',' :: l7 =>
              match lazyToParen (l7.dropWhile isPySpace) with
              | some (expr, r) => some (dtype, expr, r)
              | none => none
          | _ => none
    | _ => none
  else none

/-- Scanner for the CONVERT → CAST rewrite (src/app.py lines 226-234): each
match becomes `CAST(expr AS dtype)` with the captured expression stripped. -/
def convertToCastAux : Nat → Option Char → List Char → List Char
  | 0, _, l => l
  | _ + 1, _, [] => []
  | fuel + 1, prev, c :: rest =>
      match convertMatch prev (c :: rest) with
      | some (dtype, expr, r) =>
          "CAST(".data ++ pyStrip expr ++ " AS ".data ++ dtype ++ [')'] ++
            convertToCastAux fuel (some ')') r
      | none => c :: convertToCastAux fuel (some c) rest

def convertToCast (s : String) : String :=
  ⟨convertToCastAux (s.data.length + 1) none s.data⟩

/-- Lookahead for `\bSELECT\s+TOP\s+(\d+)\s+` (case insensitive) at the
current position, returning the digit group. -/
def searchTopAt (prev : Option Char) (l : List Char) : Option (List Char) :=
  if wordBoundaryAt prev l ∧ matchCI "select".data l then
    let l1 := l.drop 6
    if l1.takeWhile isPySpace = [] then none
    else
      let l2 := l1.dropWhile isPySpace
      if matchCI "top".data l2 then
        let l3 := l2.drop 3
        if l3.takeWhile isPySpace = [] then none
        else
          let l4 := l3.dropWhile isPySpace
          let ds := l4.takeWhile isDigitChar
          if ds = [] then none
          else
            let l5 := l4.dropWhile isDigitChar
            if l5.takeWhile isPySpace = [] then none else some ds
      else none
  else none

/-- First match of the `re.search` on line 236 of src/app.py: the digit group
of the first `SELECT TOP N` occurrence. -/
def searchTopN : Option Char → List Char → Option (List Char)
  | _, [] => none
  | prev, c :: rest =>
      match searchTopAt prev (c :: rest) with
      | some ds => some ds
      | none => searchTopN (some c) rest

/-- Lookahead for `(\bSELECT\s+)TOP\s+\d+\s+`: returns the group-1 text (the
`SELECT` keyword with its trailing whitespace, case preserved) and the
remainder after the whole match. -/
def replTopAt (prev : Option Char) (l : List Char) : Option (List Char × List Char) :=
  if wordBoundaryAt prev l ∧ matchCI "select".data l then
    let sel := l.take 6
    let l1 := l.drop 6
    let w1 := l1.takeWhile isPySpace
    if w1 = [] then none
    else
      let l2 := l1.dropWhile isPySpace
      if matchCI "top".data l2 then
        let l3 := l2.drop 3
        if l3.takeWhile isPySpace = [] then none
        else
          let l4 := l3.dropWhile isPySpace
          if l4.takeWhile isDigitChar = [] then none
          else
            let l5 := l4.dropWhile isDigitChar
            if l5.takeWhile isPySpace = [] then none
            else some (sel ++ w1, l5.dropWhile isPySpace)
      else none
  else none

/-- Scanner for `re.sub(r"(\bSELECT\s+)TOP\s+\d+\s+", r"\1", s)` (src/app.py
line 239): every match is replaced by its group-1 text. -/
def replTopAux : Nat → Option Char → List Char → List Char
  | 0, _, l => l
  | _ + 1, _, [] => []
  | fuel + 1, prev, c :: rest =>
      match replTopAt prev (c :: rest) with
      | some (g1, r) => g1 ++ replTopAux fuel (some ' ') r
      | none => c :: replTopAux fuel (some c) rest

def replSelectTop (s : String) : String :=
  ⟨replTopAux (s.data.length + 1) none s.data⟩

/-- Pattern `\bLIMIT\s+\d+\b` (src/app.py line 240). -/
def limitPat : List RexAtom :=
  [.bnd, .litCI "limit".data, .ws1, .digits1, .bnd]

def hasLimitNum (s : String) : Bool :=
  searchAtoms limitPat none s.data

/-- Python `s.rstrip(" ;\n")`. -/
def rstripSemi (l : List Char) : List Char :=
  (l.reverse.dropWhile fun c => decide (c = ' ') || decide (c = ';') || decide (c = '\n')).reverse

/-- Scanner for `re.sub(r";\s*;", ";", s)` (src/app.py line 250). -/
def dropSemiAux : Nat → List Char → List Char
  | 0, l => l
  | _ + 1, [] => []
  | fuel + 1, c :: rest =>
      if c = ';' then
        match rest.dropWhile isPySpace with
        | ';' :: r3 => ';' :: dropSemiAux fuel r3
        | _ => c :: dropSemiAux fuel rest
      else c :: dropSemiAux fuel rest

def dropDoubleSemi (s : String) : String :=
  ⟨dropSemiAux (s.data.length + 1) s.data⟩

def noteComments : String := "Removed T-SQL comments."

def noteBrackets : String := "Converted `[identifier]` to double-quoted identifiers."

def noteIsnull : String := "Replaced ISNULL with COALESCE."

def noteGetdate : String := "Replaced GETDATE() with CURRENT_TIMESTAMP."

def noteLen : String := "Replaced LEN() with LENGTH()."

def noteDatediff : String := "Check DATEDIFF order: Snowflake expects (unit, start, end)."

def noteNolock : String := "Removed WITH (NOLOCK) hints; Snowflake handles isolation differently."

def noteConvert : String := "Converted CONVERT(...) to CAST(... AS ...)."

def noteMapping : String := "Applied schema/schema-prefix mapping."

/-- Note `f"Translated TOP {n} to LIMIT {n}."` for digit group `n`. -/
def topNote (n : List Char) : String :=
  ⟨"Translated TOP ".data ++ n ++ " to LIMIT ".data ++ n ++ ".".data⟩

/-- The note a rewrite stage appends exactly when it changed the text
(`if s != before: notes.append(...)` in the source). -/
def noteUnlessEq (after before : String) (note : String) : List String :=
  if after = before then [] else [note]

/-- The TOP→LIMIT stage (src/app.py lines 236-242): on the first
`SELECT TOP N` match, every `TOP N` after a `SELECT` is dropped, a trailing
`\nLIMIT N;` is appended when no `LIMIT` clause exists (after stripping
trailing spaces, semicolons and newlines), and one note is produced. -/
def topStage (s8 : String) : String × List String :=
  match searchTopN none s8.data with
  | some n =>
      let sA := replSelectTop s8
      (if hasLimitNum sA then sA
       else ⟨rstripSemi sA.data ++ '\n' :: ("LIMIT ".data ++ n ++ [';'])⟩, [topNote n])
  | none => (s8, [])

/-- The schema-mapping stage of the translator (src/app.py lines 244-248). -/
def mapStage (s9 : String) (schema_map : List (String × String)) : String × List String :=
  if schema_map.isEmpty then (s9, [])
  else (apply_schema_mapping s9 schema_map,
    if apply_schema_mapping s9 schema_map = s9 then [] else [noteMapping])

/-- Embedding of `t_sql_to_snowflake` (src/app.py lines 192-252).  The
rewrite stages run in source order, each appending its note only when it
changed the text; then the TOP→LIMIT stage and the mapping stage run;
finally `;;` collapses to `;` and the whole result is
whitespace-normalized. -/
def t_sql_to_snowflake (tsql : String) (schema_map : List (String × String)) :
    String × List String :=
  let s1 := strip_sql_comments tsql
  let s2 := bracketToQuoted s1
  let s3 := replIsnull s2
  let s4 := replGetdate s3
  let s5 := replLen s4
  let s6 := replDatediff s5
  let s7 := removeNolock s6
  let s8 := convertToCast s7
  let p9 := topStage s8
  let p10 := mapStage p9.1 schema_map
  (normalize_whitespace (dropDoubleSemi p10.1),
   noteUnlessEq s1 tsql noteComments ++ noteUnlessEq s2 s1 noteBrackets ++
   noteUnlessEq s3 s2 noteIsnull ++ noteUnlessEq s4 s3 noteGetdate ++
   noteUnlessEq s5 s4 noteLen ++ noteUnlessEq s6 s5 noteDatediff ++
   noteUnlessEq s7 s6 noteNolock ++ noteUnlessEq s8 s7 noteConvert ++
   p9.2 ++ p10.2)

/-- The text on which the DATEDIFF substitution operates: the input after the
comment-removal, bracket-conversion, ISNULL, GETDATE and LEN stages. -/
def datediffInput (tsql : String) : String :=
  replLen (replGetdate (replIsnull (bracketToQuoted (strip_sql_comments tsql))))

/-- C1 counterexample: on `SELECT  1` (two spaces) no rewrite rule fires — the
note list is empty — yet the translated output has the whitespace run
collapsed, so a whitespace run not touched by any rule does not appear
unchanged in the output. -/
theorem C1_counterexample :
    t_sql_to_snowflake "SELECT  1" [] = ("SELECT 1", []) ∧
    ("SELECT 1" : String) ≠ "SELECT  1" :=
  ⟨rfl, by decide⟩

/-- C1 (amended): the translation function always applies whitespace
collapsing as its final step, so for every input and mapping the returned
text is a fixed point of whitespace normalization (every whitespace run is a
single space and there is no leading or trailing whitespace); input
whitespace runs are in general not preserved. -/
theorem C1_translator_output_ws_collapsed (tsql : String)
    (schema_map : List (String × String)) :
    normalize_whitespace (t_sql_to_snowflake tsql schema_map).1 =
      (t_sql_to_snowflake tsql schema_map).1 :=
  normalize_whitespace_idem _

/-- C4: translating `SELECT TOP 5 * FROM t` with an empty mapping yields
`SELECT * FROM t LIMIT 5;`, which contains `LIMIT 5` and no longer contains
`TOP 5`, and the note list is exactly one note mentioning both `TOP 5` and
`LIMIT 5`. -/
theorem C4_top_to_limit :
    t_sql_to_snowflake "SELECT TOP 5 * FROM t" [] =
      ("SELECT * FROM t LIMIT 5;", ["Translated TOP 5 to LIMIT 5."]) ∧
    hasSub "LIMIT 5".data "SELECT * FROM t LIMIT 5;".data = true ∧
    hasSub "TOP 5".data "SELECT * FROM t LIMIT 5;".data = false ∧
    hasSub "TOP 5".data "Translated TOP 5 to LIMIT 5.".data = true ∧
    hasSub "LIMIT 5".data "Translated TOP 5 to LIMIT 5.".data = true :=
  ⟨rfl, by decide, by decide, by decide, by decide⟩

-- ---------------------------------------------------------------------------
-- The DATEDIFF note (C10): when exactly is it emitted?
-- ---------------------------------------------------------------------------

/-- Scanner paralleling `replaceAtomsAux`: true when some match of the
pattern is spelled differently from the canonical replacement text. -/
def diffMatchAux (ats : List RexAtom) (canon : List Char) :
    Nat → Option Char → List Char → Bool
  | 0, _, _ => false
  | _ + 1, _, [] => false
  | fuel + 1, prev, c :: rest =>
      match matchAtoms ats prev (c :: rest) with
      | some (m, r) =>
          if m = canon then diffMatchAux ats canon fuel (lastOr prev m) r else true
      | none => diffMatchAux ats canon fuel (some c) rest

/-- Does the text contain a `\bDATEDIFF\s*\(` occurrence (case-insensitive)
whose spelling differs from the exact text `DATEDIFF(`? -/
def hasNonCanonDatediff (s : String) : Bool :=
  diffMatchAux datediffPat ddCanon (s.data.length + 1) none s.data

/-- Minimum number of characters any match of an atom sequence consumes. -/
def minLenAtoms : List RexAtom → Nat
  | [] => 0
  | .bnd :: ats => minLenAtoms ats
  | .litCI w :: ats => w.length + minLenAtoms ats
  | .ch _ :: ats => 1 + minLenAtoms ats
  | .ws0 :: ats => minLenAtoms ats
  | .ws1 :: ats => 1 + minLenAtoms ats
  | .digits1 :: ats => 1 + minLenAtoms ats

theorem matchCI_length : ∀ (w l : List Char), matchCI w l = true → w.length ≤ l.length := by
  intro w
  induction w with
  | nil => intro l _; simp
  | cons p ps ih =>
      intro l h
      cases l with
      | nil => simp [matchCI] at h
      | cons c cs =>
          rw [matchCI, Bool.and_eq_true] at h
          simpa using Nat.succ_le_succ (ih cs h.2)

theorem matchAtoms_append : ∀ (ats : List RexAtom) (prev : Option Char) (l m r : List Char),
    matchAtoms ats prev l = some (m, r) → l = m ++ r := by
  intro ats
  induction ats with
  | nil =>
      intro prev l m r h
      simp only [matchAtoms, Option.some.injEq, Prod.mk.injEq] at h
      rw [← h.1, ← h.2]
      rfl
  | cons a ats ih =>
      intro prev l m r h
      cases a with
      | bnd =>
          simp only [matchAtoms] at h
          split at h
          · exact ih prev l m r h
          · exact absurd h (by simp)
      | litCI w =>
          simp only [matchAtoms] at h
          split at h
          · cases hrec : matchAtoms ats (lastOr prev (l.take w.length)) (l.drop w.length) with
            | none => rw [hrec] at h; exact absurd h (by simp)
            | some p =>
                obtain ⟨m2, r2⟩ := p
                rw [hrec] at h
                simp only [Option.some.injEq, Prod.mk.injEq] at h
                rw [← h.1, ← h.2]
                rw [List.append_assoc, ← ih _ _ _ _ hrec, List.take_append_drop]
          · exact absurd h (by simp)
      | ch c =>
          simp only [matchAtoms] at h
          cases l with
          | nil => exact absurd h (by simp)
          | cons d rest =>
              simp only at h
              split at h
              · cases hrec : matchAtoms ats (some d) rest with
                | none => rw [hrec] at h; exact absurd h (by simp)
                | some p =>
                    obtain ⟨m2, r2⟩ := p
                    rw [hrec] at h
                    simp only [Option.some.injEq, Prod.mk.injEq] at h
                    rw [← h.1, ← h.2]
                    rw [List.cons_append, ← ih _ _ _ _ hrec]
              · exact absurd h (by simp)
      | ws0 =>
          simp only [matchAtoms] at h
          cases hrec : matchAtoms ats (lastOr prev (l.takeWhile isPySpace))
              (l.dropWhile isPySpace) with
          | none => rw [hrec] at h; exact absurd h (by simp)
          | some p =>
              obtain ⟨m2, r2⟩ := p
              rw [hrec] at h
              simp only [Option.some.injEq, Prod.mk.injEq] at h
              rw [← h.1, ← h.2]
              rw [List.append_assoc, ← ih _ _ _ _ hrec, List.takeWhile_append_dropWhile]
      | ws1 =>
          simp only [matchAtoms] at h
          split at h
          · exact absurd h (by simp)
          · cases hrec : matchAtoms ats (lastOr prev (l.takeWhile isPySpace))
                (l.dropWhile isPySpace) with
            | none => rw [hrec] at h; exact absurd h (by simp)
            | some p =>
                obtain ⟨m2, r2⟩ := p
                rw [hrec] at h
                simp only [Option.some.injEq, Prod.mk.injEq] at h
                rw [← h.1, ← h.2]
                rw [List.append_assoc, ← ih _ _ _ _ hrec, List.takeWhile_append_dropWhile]
      | digits1 =>
          simp only [matchAtoms] at h
          split at h
          · exact absurd h (by simp)
          · cases hrec : matchAtoms ats (lastOr prev (l.takeWhile isDigitChar))
                (l.dropWhile isDigitChar) with
            | none => rw [hrec] at h; exact absurd h (by simp)
            | some p =>
                obtain ⟨m2, r2⟩ := p
                rw [hrec] at h
                simp only [Option.some.injEq, Prod.mk.injEq] at h
                rw [← h.1, ← h.2]
                rw [List.append_assoc, ← ih _ _ _ _ hrec, List.takeWhile_append_dropWhile]

theorem matchAtoms_minLen : ∀ (ats : List RexAtom) (prev : Option Char) (l m r : List Char),
    matchAtoms ats prev l = some (m, r) → minLenAtoms ats ≤ m.length := by
  intro ats
  induction ats with
  | nil =>
      intro prev l m r h
      simp [minLenAtoms]
  | cons a ats ih =>
      intro prev l m r h
      cases a with
      | bnd =>
          simp only [matchAtoms] at h
          split at h
          · exact ih prev l m r h
          · exact absurd h (by simp)
      | litCI w =>
          simp only [matchAtoms] at h
          split at h
          · rename_i hci
            cases hrec : matchAtoms ats (lastOr prev (l.take w.length)) (l.drop w.length) with
            | none => rw [hrec] at h; exact absurd h (by simp)
            | some p =>
                obtain ⟨m2, r2⟩ := p
                rw [hrec] at h
                simp only [Option.some.injEq, Prod.mk.injEq] at h
                have hlen : (l.take w.length).length = w.length := by
                  rw [List.length_take]
                  exact Nat.min_eq_left (matchCI_length w l hci)
                have := ih _ _ _ _ hrec
                rw [← h.1, List.length_append, hlen]
                simp only [minLenAtoms]
                omega
          · exact absurd h (by simp)
      | ch c =>
          simp only [matchAtoms] at h
          cases l with
          | nil => exact absurd h (by simp)
          | cons d rest =>
              simp only at h
              split at h
              · cases hrec : matchAtoms ats (some d) rest with
                | none => rw [hrec] at h; exact absurd h (by simp)
                | some p =>
                    obtain ⟨m2, r2⟩ := p
                    rw [hrec] at h
                    simp only [Option.some.injEq, Prod.mk.injEq] at h
                    have := ih _ _ _ _ hrec
                    rw [← h.1]
                    simp only [minLenAtoms, List.length_cons]
                    omega
              · exact absurd h (by simp)
      | ws0 =>
          simp only [matchAtoms] at h
          cases hrec : matchAtoms ats (lastOr prev (l.takeWhile isPySpace))
              (l.dropWhile isPySpace) with
          | none => rw [hrec] at h; exact absurd h (by simp)
          | some p =>
              obtain ⟨m2, r2⟩ := p
              rw [hrec] at h
              simp only [Option.some.injEq, Prod.mk.injEq] at h
              have := ih _ _ _ _ hrec
              rw [← h.1, List.length_append]
              simp only [minLenAtoms]
              omega
      | ws1 =>
          simp only [matchAtoms] at h
          split at h
          · exact absurd h (by simp)
          · rename_i hrun
            cases hrec : matchAtoms ats (lastOr prev (l.takeWhile isPySpace))
                (l.dropWhile isPySpace) with
            | none => rw [hrec] at h; exact absurd h (by simp)
            | some p =>
                obtain ⟨m2, r2⟩ := p
                rw [hrec] at h
                simp only [Option.some.injEq, Prod.mk.injEq] at h
                have h2 := ih _ _ _ _ hrec
                have h3 : 1 ≤ (l.takeWhile isPySpace).length :=
                  List.length_pos.mpr hrun
                rw [← h.1, List.length_append]
                simp only [minLenAtoms]
                omega
      | digits1 =>
          simp only [matchAtoms] at h
          split at h
          · exact absurd h (by simp)
          · rename_i hrun
            cases hrec : matchAtoms ats (lastOr prev (l.takeWhile isDigitChar))
                (l.dropWhile isDigitChar) with
            | none => rw [hrec] at h; exact absurd h (by simp)
            | some p =>
                obtain ⟨m2, r2⟩ := p
                rw [hrec] at h
                simp only [Option.some.injEq, Prod.mk.injEq] at h
                have h2 := ih _ _ _ _ hrec
                have h3 : 1 ≤ (l.takeWhile isDigitChar).length :=
                  List.length_pos.mpr hrun
                rw [← h.1, List.length_append]
                simp only [minLenAtoms]
                omega

theorem replaceAtomsAux_length_le (ats : List RexAtom) (rep : List Char)
    (hrep : rep.length ≤ minLenAtoms ats) :
    ∀ (fuel : Nat) (prev : Option Char) (l : List Char),
      (replaceAtomsAux ats rep fuel prev l).length ≤ l.length := by
  intro fuel
  induction fuel with
  | zero => intro prev l; exact le_refl _
  | succ n ih =>
      intro prev l
      cases l with
      | nil => simp [replaceAtomsAux]
      | cons c rest =>
          rw [replaceAtomsAux]
          cases hM : matchAtoms ats prev (c :: rest) with
          | none =>
              simp only [List.length_cons]
              exact Nat.succ_le_succ (ih (some c) rest)
          | some p =>
              obtain ⟨m, r⟩ := p
              have hmr : c :: rest = m ++ r := matchAtoms_append ats prev _ m r hM
              have hmin := matchAtoms_minLen ats prev _ m r hM
              simp only [List.length_append]
              have := ih (lastOr prev m) r
              have hlen : (c :: rest).length = m.length + r.length := by
                rw [hmr, List.length_append]
              rw [hlen]
              omega

theorem replaceAtomsAux_eq_self_iff (ats : List RexAtom) (canon : List Char)
    (hlen : canon.length = minLenAtoms ats) (hpos : 1 ≤ minLenAtoms ats) :
    ∀ (fuel : Nat) (prev : Option Char) (l : List Char), l.length < fuel →
      (replaceAtomsAux ats canon fuel prev l = l ↔
        diffMatchAux ats canon fuel prev l = false) := by
  intro fuel
  induction fuel with
  | zero => intro prev l hl; exact absurd hl (by omega)
  | succ n ih =>
      intro prev l hl
      cases l with
      | nil => simp [replaceAtomsAux, diffMatchAux]
      | cons c rest =>
          cases hM : matchAtoms ats prev (c :: rest) with
          | none =>
              simp only [replaceAtomsAux, diffMatchAux, hM]
              have hr : rest.length < n := by
                simp only [List.length_cons] at hl
                omega
              have hiff := ih (some c) rest hr
              constructor
              · intro h2
                have h3 : replaceAtomsAux ats canon n (some c) rest = rest :=
                  (List.cons.injEq c _ c rest).mp h2 |>.2
                exact hiff.mp h3
              · intro h2
                rw [hiff.mpr h2]
          | some p =>
              obtain ⟨m, r⟩ := p
              simp only [replaceAtomsAux, diffMatchAux, hM]
              have hmr : c :: rest = m ++ r := matchAtoms_append ats prev _ m r hM
              have hmin := matchAtoms_minLen ats prev _ m r hM
              have hm1 : 1 ≤ m.length := le_trans hpos hmin
              have hlr : (c :: rest).length = m.length + r.length := by
                rw [hmr, List.length_append]
              have hr : r.length < n := by
                simp only [List.length_cons] at hl hlr
                omega
              by_cases hmc : m = canon
              · subst hmc
                simp only [if_pos rfl]
                constructor
                · intro h2
                  rw [hmr] at h2
                  have h3 := List.append_cancel_left h2
                  exact (ih (lastOr prev m) r hr).mp h3
                · intro h2
                  rw [hmr]
                  exact congrArg (fun z => m ++ z) ((ih (lastOr prev m) r hr).mpr h2)
              · simp only [if_neg hmc]
                constructor
                · intro h2
                  exfalso
                  rw [hmr] at h2
                  rcases Nat.lt_or_ge canon.length m.length with hlt | hge
                  · have hA := replaceAtomsAux_length_le ats canon (le_of_eq hlen) n
                      (lastOr prev m) r
                    have := congrArg List.length h2
                    simp only [List.length_append] at this
                    omega
                  · have heq : canon.length = m.length := by omega
                    exact hmc (List.append_inj h2 heq).1.symm
                · intro h2
                  exact absurd h2 (by decide)

theorem repl_eq_self_iff_no_noncanon (t : String) :
    replDatediff t = t ↔ hasNonCanonDatediff t = false := by
  have h := replaceAtomsAux_eq_self_iff datediffPat ddCanon (by decide) (by decide)
    (t.data.length + 1) none t.data (by omega)
  rw [replDatediff, replaceAtoms, hasNonCanonDatediff]
  rw [String.ext_iff]
  exact h

theorem mem_noteUnlessEq {x after before note : String} :
    x ∈ noteUnlessEq after before note ↔ ¬ (after = before) ∧ x = note := by
  rw [noteUnlessEq]
  by_cases h : after = before
  · simp [h]
  · simp [h]

theorem dd_ne_topNote (n : List Char) : noteDatediff ≠ topNote n := by
  intro h
  have h2 : noteDatediff.data.head? = (topNote n).data.head? :=
    congrArg (fun s : String => s.data.head?) h
  rw [show noteDatediff.data.head? = some 'C' from rfl] at h2
  rw [show (topNote n).data.head? = some 'T' from rfl] at h2
  exact absurd h2 (by decide)

theorem dd_not_mem_topStage (s : String) : noteDatediff ∉ (topStage s).2 := by
  rw [topStage]
  cases hT : searchTopN none s.data with
  | none => simp
  | some n =>
      simp only [List.mem_singleton]
      exact dd_ne_topNote n

theorem dd_not_mem_mapStage (s : String) (m : List (String × String)) :
    noteDatediff ∉ (mapStage s m).2 := by
  rw [mapStage]
  by_cases hm : m.isEmpty
  · simp [hm]
  · simp only [if_neg hm]
    by_cases he : apply_schema_mapping s m = s
    · simp [he]
    · simp only [if_neg he, List.mem_singleton]
      intro h
      exact absurd h (by decide)

theorem dd_note_mem_iff (tsql : String) (m : List (String × String)) :
    noteDatediff ∈ (t_sql_to_snowflake tsql m).2 ↔
      replDatediff (datediffInput tsql) ≠ datediffInput tsql := by
  have h1 : (t_sql_to_snowflake tsql m).2 =
      noteUnlessEq (strip_sql_comments tsql) tsql noteComments ++
      noteUnlessEq (bracketToQuoted (strip_sql_comments tsql)) (strip_sql_comments tsql)
        noteBrackets ++
      noteUnlessEq (replIsnull (bracketToQuoted (strip_sql_comments tsql)))
        (bracketToQuoted (strip_sql_comments tsql)) noteIsnull ++
      noteUnlessEq (replGetdate (replIsnull (bracketToQuoted (strip_sql_comments tsql))))
        (replIsnull (bracketToQuoted (strip_sql_comments tsql))) noteGetdate ++
      noteUnlessEq (datediffInput tsql)
        (replGetdate (replIsnull (bracketToQuoted (strip_sql_comments tsql)))) noteLen ++
      noteUnlessEq (replDatediff (datediffInput tsql)) (datediffInput tsql) noteDatediff ++
      noteUnlessEq (removeNolock (replDatediff (datediffInput tsql)))
        (replDatediff (datediffInput tsql)) noteNolock ++
      noteUnlessEq (convertToCast (removeNolock (replDatediff (datediffInput tsql))))
        (removeNolock (replDatediff (datediffInput tsql))) noteConvert ++
      (topStage (convertToCast (removeNolock (replDatediff (datediffInput tsql))))).2 ++
      (mapStage (topStage (convertToCast (removeNolock
        (replDatediff (datediffInput tsql))))).1 m).2 := rfl
  rw [h1]
  have e1 : (noteDatediff = noteComments) = False := eq_false (by decide)
  have e2 : (noteDatediff = noteBrackets) = False := eq_false (by decide)
  have e3 : (noteDatediff = noteIsnull) = False := eq_false (by decide)
  have e4 : (noteDatediff = noteGetdate) = False := eq_false (by decide)
  have e5 : (noteDatediff = noteLen) = False := eq_false (by decide)
  have e7 : (noteDatediff = noteNolock) = False := eq_false (by decide)
  have e8 : (noteDatediff = noteConvert) = False := eq_false (by decide)
  have e9 : (noteDatediff ∈
      (topStage (convertToCast (removeNolock (replDatediff (datediffInput tsql))))).2) =
        False :=
    eq_false (dd_not_mem_topStage _)
  have e10 : (noteDatediff ∈ (mapStage (topStage (convertToCast (removeNolock
      (replDatediff (datediffInput tsql))))).1 m).2) = False :=
    eq_false (dd_not_mem_mapStage _ m)
  simp only [List.mem_append, mem_noteUnlessEq, e1, e2, e3, e4, e5, e7, e8, e9, e10,
    and_false, false_or, or_false, and_true]

/-- C10 counterexample: the raw input `-- datediff(\nSELECT 1` contains a
`DATEDIFF` call whose spelling (`datediff(`) differs from `DATEDIFF(`, yet no
DATEDIFF note is emitted, because comment stripping removes the call before
the substitution runs; this refutes the claimed if-and-only-if on the raw
input. -/
theorem C10_counterexample :
    hasNonCanonDatediff "-- datediff(\nSELECT 1" = true ∧
    noteDatediff ∉ (t_sql_to_snowflake "-- datediff(\nSELECT 1" []).2 :=
  ⟨by decide, by decide⟩

/-- C10 (amended): the note `Check DATEDIFF order: Snowflake expects (unit,
start, end).` is emitted if and only if the text as it stands when the
DATEDIFF substitution runs — after comment removal, bracket conversion and
the ISNULL/GETDATE/LEN replacements — contains an occurrence of
word-boundary `DATEDIFF`, optional whitespace, `(` (case-insensitively)
whose spelling differs from the exact text `DATEDIFF(`. -/
theorem C10_datediff_note_iff (tsql : String) (m : List (String × String)) :
    noteDatediff ∈ (t_sql_to_snowflake tsql m).2 ↔
      hasNonCanonDatediff (datediffInput tsql) = true := by
  rw [dd_note_mem_iff]
  constructor
  · intro h
    cases hb : hasNonCanonDatediff (datediffInput tsql) with
    | true => rfl
    | false => exact absurd ((repl_eq_self_iff_no_noncanon _).mpr hb) h
  · intro h h2
    rw [(repl_eq_self_iff_no_noncanon _).mp h2] at h
    exact absurd h (by decide)

-- ---------------------------------------------------------------------------
-- explain_differences (src/app.py lines 154-185)
-- ---------------------------------------------------------------------------

/-- Pattern `\bNVARCHAR\b` (src/app.py line 162). -/
def nvarcharPat : List RexAtom :=
  [.bnd, .litCI "nvarchar".data, .bnd]

/-- Pattern `\bIDENTITY\s*\(` (src/app.py line 164). -/
def identityPat : List RexAtom :=
  [.bnd, .litCI "identity".data, .ws0, .ch '(']

/-- Pattern `\bTOP\s+\d+` (src/app.py line 165). -/
def topPat : List RexAtom :=
  [.bnd, .litCI "top".data, .ws1, .digits1]

/-- Pattern `\bMERGE\b` (src/app.py line 166). -/
def mergePat : List RexAtom :=
  [.bnd, .litCI "merge".data, .bnd]

/-- Pattern `\bCROSS\s*APPLY\b` (src/app.py line 167). -/
def crossApplyPat : List RexAtom :=
  [.bnd, .litCI "cross".data, .ws0, .litCI "apply".data, .bnd]

/-- Case-insensitive `re.search` over a whole string. -/
def searchIn (ats : List RexAtom) (s : String) : Bool :=
  searchAtoms ats none s.data

/-- The fixed construct-detection table of `explain_differences`
(src/app.py lines 158-168), in declared order. -/
def explainChecks : List (List RexAtom × String) :=
  [(isnullPat, "T-SQL uses `ISNULL`; Snowflake prefers `COALESCE`."),
   (getdatePat, "`GETDATE()` exists only in T-SQL; map to `CURRENT_TIMESTAMP`."),
   (lenPat, "`LEN()` should become `LENGTH()` in Snowflake."),
   (nvarcharPat, "`NVARCHAR` types need to become `VARCHAR` (Snowflake stores UTF-8 by default)."),
   (nolockPat, "`WITH (NOLOCK)` hints are unsupported in Snowflake; remove or redesign isolation."),
   (identityPat, "`IDENTITY()` sequences must be replaced with `IDENTITY` columns or sequences in Snowflake."),
   (topPat, "`TOP N` should be rewritten as `LIMIT N` (optionally with `ORDER BY`)."),
   (mergePat, "Review `MERGE` syntax differences, especially `OUTPUT` clauses and semicolons."),
   (crossApplyPat, "`CROSS APPLY`/`OUTER APPLY` need rewrites using `LATERAL FLATTEN` or joins in Snowflake.")]

/-- Construct-detection pass: the message of each pattern that matches the
T-SQL side but not the Snowflake side, in table order (src/app.py 169-171). -/
def constructExplanations (tsql snow : String) : List String :=
  (explainChecks.filter fun pc => searchIn pc.1 tsql && !searchIn pc.1 snow).map Prod.snd

/-- Maximal word-character runs of a text, in order; the accumulator holds
the current run reversed. -/
def wordRunsAux (cur : List Char) : List Char → List (List Char)
  | [] => if cur = [] then [] else [cur.reverse]
  | c :: rest =>
      if isWordChar c then wordRunsAux (c :: cur) rest
      else if cur = [] then wordRunsAux [] rest
      else cur.reverse :: wordRunsAux [] rest

/-- Tokens of `re.findall(r"\b[A-Za-z_][A-Za-z0-9_]*\b", text)`: exactly the
maximal word-character runs whose first character is a letter or underscore
(a run starting with a digit has no word boundary before any later letter,
so it yields no token). -/
def wordTokens (l : List Char) : List (List Char) :=
  (wordRunsAux [] l).filter fun run =>
    match run with
    | [] => false
    | c :: _ => isIdentStart c

/-- Case-folded word tokens of a document (`re.findall` on `text.lower()`,
src/app.py lines 173-174). -/
def tokensOf (s : String) : List String :=
  (wordTokens (lowerL s.data)).map fun l => ⟨l⟩

/-- Python `sorted` on strings: the unique `≤`-sorted arrangement. -/
def pySortedStrings (l : List String) : List String :=
  l.insertionSort (· ≤ ·)

/-- One direction of the vocabulary pass (src/app.py line 175 resp. 180):
tokens of `a` that are not tokens of `b`, kept when longer than 3
characters, deduplicated (set semantics), sorted, capped at 10. -/
def vocabOnly (a b : String) : List String :=
  (pySortedStrings ((tokensOf a).filter fun t =>
    decide (t ∉ tokensOf b) && decide (3 < t.length)).dedup).take 10

def tsqlOnlyMsg (u : List String) : String :=
  "Tokens present only in the T-SQL EXP (check they were migrated): " ++
    String.intercalate ", " u

def snowOnlyMsg (v : List String) : String :=
  "Tokens present only in the Snowflake EXP (verify intentional additions): " ++
    String.intercalate ", " v

/-- Embedding of `explain_differences` (src/app.py lines 154-185): empty
input short-circuits; otherwise the construct messages come first, then at
most one message per non-empty vocabulary direction. -/
def explain_differences (tsql snow : String) : List String :=
  if tsql = "" ∨ snow = "" then []
  else
    constructExplanations tsql snow ++
    (if (vocabOnly tsql snow).isEmpty then [] else [tsqlOnlyMsg (vocabOnly tsql snow)]) ++
    (if (vocabOnly snow tsql).isEmpty then [] else [snowOnlyMsg (vocabOnly snow tsql)])

/-- C9: whenever one input of the explainer is empty, it returns the empty
list: no construct message and no vocabulary message. -/
theorem C9_empty_input_no_explanations (tsql snow : String) (h : tsql = "" ∨ snow = "") :
    explain_differences tsql snow = [] := by
  rw [explain_differences, if_pos h]

/-- Witness for C9: the empty T-SQL side suppresses every message even
though the Snowflake side matches the GETDATE construct pattern. -/
theorem C9_witness :
    searchIn getdatePat "SELECT GETDATE() FROM t WITH (NOLOCK)" = true ∧
    explain_differences "" "SELECT GETDATE() FROM t WITH (NOLOCK)" = [] :=
  ⟨by decide, C9_empty_input_no_explanations "" _ (Or.inl rfl)⟩

theorem vocabOnly_mem {a b t : String} (h : t ∈ vocabOnly a b) :
    3 < t.length ∧ t ∈ tokensOf a ∧ t ∉ tokensOf b := by
  rw [vocabOnly] at h
  have h1 : t ∈ pySortedStrings ((tokensOf a).filter fun t =>
      decide (t ∉ tokensOf b) && decide (3 < t.length)).dedup :=
    List.take_subset 10 _ h
  have h2 : t ∈ ((tokensOf a).filter fun t =>
      decide (t ∉ tokensOf b) && decide (3 < t.length)).dedup :=
    (List.perm_insertionSort _ _).mem_iff.mp h1
  have h3 := List.mem_dedup.mp h2
  have h4 := List.mem_filter.mp h3
  have h5 := h4.2
  simp only [Bool.and_eq_true, decide_eq_true_eq] at h5
  exact ⟨h5.2, h4.1, h5.1⟩

/-- The full statement verified for C8 at a pair of non-empty inputs: the
explainer output is the construct messages followed by at most one message
per non-empty vocabulary direction, and each vocabulary list is capped at
10, sorted, and consists of tokens longer than 3 characters present in one
case-folded token set and absent from the other. -/
def C8Prop (a b : String) : Prop :=
  explain_differences a b =
    constructExplanations a b ++
    (if (vocabOnly a b).isEmpty then [] else [tsqlOnlyMsg (vocabOnly a b)]) ++
    (if (vocabOnly b a).isEmpty then [] else [snowOnlyMsg (vocabOnly b a)]) ∧
  (vocabOnly a b).length ≤ 10 ∧ (vocabOnly b a).length ≤ 10 ∧
  List.Sorted (· ≤ ·) (vocabOnly a b) ∧ List.Sorted (· ≤ ·) (vocabOnly b a) ∧
  (∀ t ∈ vocabOnly a b, 3 < t.length ∧ t ∈ tokensOf a ∧ t ∉ tokensOf b) ∧
  (∀ t ∈ vocabOnly b a, 3 < t.length ∧ t ∈ tokensOf b ∧ t ∉ tokensOf a)

theorem sorted_vocabOnly (a b : String) : List.Sorted (· ≤ ·) (vocabOnly a b) := by
  rw [vocabOnly]
  exact List.Pairwise.sublist (List.take_sublist 10 _)
    (List.sorted_insertionSort (· ≤ ·) _)

/-- C8: for every pair of non-empty raw texts, the explainer's vocabulary
pass behaves as specified: case-folded word tokens, set difference in each
direction, filter to length > 3, lexicographic sort, cap at 10, and at most
two messages appended after all construct-detection messages. -/
theorem C8_vocabulary_pass (a b : String) (ha : a ≠ "") (hb : b ≠ "") : C8Prop a b := by
  refine ⟨?_, ?_, ?_, ?_, ?_, ?_, ?_⟩
  · rw [explain_differences, if_neg (by rintro (h | h) <;> [exact ha h; exact hb h])]
  · rw [vocabOnly]; exact List.length_take_le 10 _
  · rw [vocabOnly]; exact List.length_take_le 10 _
  · exact sorted_vocabOnly a b
  · exact sorted_vocabOnly b a
  · intro t ht; exact vocabOnly_mem ht
  · intro t ht; exact vocabOnly_mem ht

/-- Witness for C8 at the concrete non-empty inputs `x` and `y`. -/
theorem C8_witness : ("x" : String) ≠ "" ∧ ("y" : String) ≠ "" ∧ C8Prop "x" "y" :=
  ⟨by decide, by decide, C8_vocabulary_pass "x" "y" (by decide) (by decide)⟩

-- ---------------------------------------------------------------------------
-- Diff engine: difflib.SequenceMatcher, modelled from its documented
-- algorithm (spec §4.4): recursive longest-matching-block decomposition,
-- ties broken by earliest start in the first sequence, then in the second.
-- ---------------------------------------------------------------------------

section DiffEngine

variable {α : Type} [DecidableEq α]

/-- Length of the common prefix of two lists. -/
def cpl : List α → List α → Nat
  | a :: as2, b :: bs => if a = b then cpl as2 bs + 1 else 0
  | _, _ => 0

/-- Length of the matching block starting at positions `i`, `j`, clipped to
the ranges `[i, ahi)`, `[j, bhi)`. -/
def flmK (a b : List α) (i j ahi bhi : Nat) : Nat :=
  cpl ((a.drop i).take (ahi - i)) ((b.drop j).take (bhi - j))

/-- Inner candidate scan of `find_longest_match`: all start positions `j`
in the second sequence for a fixed start `i` in the first. -/
def flmInner (a b : List α) (ahi bhi i : Nat) (best : Nat × Nat × Nat) (js : List Nat) :
    Nat × Nat × Nat :=
  js.foldl (fun best2 j =>
    if best2.2.2 < flmK a b i j ahi bhi then (i, j, flmK a b i j ahi bhi) else best2) best

/-- `find_longest_match` over `a[alo:ahi]`, `b[blo:bhi]`: the longest
matching block, earliest in `a` then in `b` on ties; `(alo, blo, 0)` when
nothing matches. -/
def flm (a b : List α) (alo ahi blo bhi : Nat) : Nat × Nat × Nat :=
  (List.range' alo (ahi - alo)).foldl
    (fun best i => flmInner a b ahi bhi i best (List.range' blo (bhi - blo)))
    (alo, blo, 0)

/-- Recursive block collection of `get_matching_blocks`: the longest match
splits the ranges, and the two sides are processed recursively; the
in-order traversal produces the blocks already sorted.  Fuel decreases at
every level; the top-level caller supplies more fuel than the recursion
depth can reach. -/
def smRec (a b : List α) : Nat → Nat → Nat → Nat → Nat → List (Nat × Nat × Nat)
  | 0, _, _, _, _ => []
  | fuel + 1, alo, ahi, blo, bhi =>
      if (flm a b alo ahi blo bhi).2.2 = 0 then []
      else
        smRec a b fuel alo (flm a b alo ahi blo bhi).1 blo (flm a b alo ahi blo bhi).2.1 ++
          flm a b alo ahi blo bhi ::
            smRec a b fuel ((flm a b alo ahi blo bhi).1 + (flm a b alo ahi blo bhi).2.2) ahi
              ((flm a b alo ahi blo bhi).2.1 + (flm a b alo ahi blo bhi).2.2) bhi

/-- The adjacent-block merge of `get_matching_blocks` (second loop of the
Python source): abutting blocks collapse into one, empty accumulated blocks
are dropped. -/
def mergeBlocks : Nat → Nat → Nat → List (Nat × Nat × Nat) → List (Nat × Nat × Nat)
  | i1, j1, k1, [] => if k1 = 0 then [] else [(i1, j1, k1)]
  | i1, j1, k1, (i2, j2, k2) :: rest =>
      if i1 + k1 = i2 ∧ j1 + k1 = j2 then mergeBlocks i1 j1 (k1 + k2) rest
      else (if k1 = 0 then [] else [(i1, j1, k1)]) ++ mergeBlocks i2 j2 k2 rest

/-- `get_matching_blocks`: merged sorted blocks plus the terminal sentinel
`(len(a), len(b), 0)`. -/
def get_matching_blocks (a b : List α) : List (Nat × Nat × Nat) :=
  mergeBlocks 0 0 0 (smRec a b (a.length + b.length + 1) 0 a.length 0 b.length) ++
    [(a.length, b.length, 0)]

/-- Diff opcode tags, as in `difflib`. -/
inductive DiffTag where
  | equal : DiffTag
  | replace : DiffTag
  | delete : DiffTag
  | insert : DiffTag

/-- One opcode: a tag with its half-open index ranges into both sequences. -/
structure DiffOp where
  tag : DiffTag
  i1 : Nat
  i2 : Nat
  j1 : Nat
  j2 : Nat

/-- The opcode construction loop of `get_opcodes`: the gap before each block
becomes a `replace`/`delete`/`insert` opcode and the block itself an `equal`
opcode. -/
def opcodesGo : Nat → Nat → List (Nat × Nat × Nat) → List DiffOp
  | _, _, [] => []
  | i, j, (ai, bj, sz) :: rest =>
      (if i < ai ∧ j < bj then [⟨.replace, i, ai, j, bj⟩]
       else if i < ai then [⟨.delete, i, ai, j, bj⟩]
       else if j < bj then [⟨.insert, i, ai, j, bj⟩]
       else []) ++
      (if 0 < sz then [⟨.equal, ai, ai + sz, bj, bj + sz⟩] else []) ++
      opcodesGo (ai + sz) (bj + sz) rest

/-- `get_opcodes` of the matcher over two sequences. -/
def get_opcodes (a b : List α) : List DiffOp :=
  opcodesGo 0 0 (get_matching_blocks a b)

/-- Total size of all matching blocks (the `matches` sum of `ratio`). -/
def totalMatched (a b : List α) : Nat :=
  ((get_matching_blocks a b).map fun t => t.2.2).sum

/-- `ratio()`: `2*M/T` as an exact rational, `1` when both sequences are
empty (`_calculate_ratio` in difflib). -/
def similarityRatio (a b : List α) : ℚ :=
  if a.length + b.length = 0 then 1
  else 2 * (totalMatched a b : ℚ) / ((a.length : ℚ) + (b.length : ℚ))

theorem cpl_le_left : ∀ (x y : List α), cpl x y ≤ x.length := by
  intro x
  induction x with
  | nil => intro y; cases y <;> simp [cpl]
  | cons a as2 ih =>
      intro y
      cases y with
      | nil => simp [cpl]
      | cons b bs =>
          rw [cpl]
          split
          · simpa using Nat.succ_le_succ (ih bs)
          · simp

theorem cpl_le_right : ∀ (x y : List α), cpl x y ≤ y.length := by
  intro x
  induction x with
  | nil => intro y; cases y <;> simp [cpl]
  | cons a as2 ih =>
      intro y
      cases y with
      | nil => simp [cpl]
      | cons b bs =>
          rw [cpl]
          split
          · simpa using Nat.succ_le_succ (ih bs)
          · simp

theorem cpl_self : ∀ (x : List α), cpl x x = x.length := by
  intro x
  induction x with
  | nil => rfl
  | cons a as2 ih => simp [cpl, ih]

theorem flmK_le_i (a b : List α) (i j ahi bhi : Nat) : flmK a b i j ahi bhi ≤ ahi - i := by
  rw [flmK]
  refine le_trans (cpl_le_left _ _) ?_
  rw [List.length_take]
  exact min_le_left _ _

theorem flmK_le_j (a b : List α) (i j ahi bhi : Nat) : flmK a b i j ahi bhi ≤ bhi - j := by
  rw [flmK]
  refine le_trans (cpl_le_right _ _) ?_
  rw [List.length_take]
  exact min_le_left _ _

theorem flm_bounds (a b : List α) (alo ahi blo bhi : Nat) (ha : alo ≤ ahi) (hb : blo ≤ bhi) :
    alo ≤ (flm a b alo ahi blo bhi).1 ∧
    (flm a b alo ahi blo bhi).1 + (flm a b alo ahi blo bhi).2.2 ≤ ahi ∧
    blo ≤ (flm a b alo ahi blo bhi).2.1 ∧
    (flm a b alo ahi blo bhi).2.1 + (flm a b alo ahi blo bhi).2.2 ≤ bhi := by
  rw [flm]
  apply List.foldlRecOn (motive := fun t : Nat × Nat × Nat =>
    alo ≤ t.1 ∧ t.1 + t.2.2 ≤ ahi ∧ blo ≤ t.2.1 ∧ t.2.1 + t.2.2 ≤ bhi)
  · refine ⟨le_refl _, ?_, le_refl _, ?_⟩
    · show alo + 0 ≤ ahi
      omega
    · show blo + 0 ≤ bhi
      omega
  · intro best hbest i hi
    rw [flmInner]
    apply List.foldlRecOn (motive := fun t : Nat × Nat × Nat =>
      alo ≤ t.1 ∧ t.1 + t.2.2 ≤ ahi ∧ blo ≤ t.2.1 ∧ t.2.1 + t.2.2 ≤ bhi)
    · exact hbest
    · intro best2 hbest2 j hj
      split
      · have hi2 : alo ≤ i ∧ i < alo + (ahi - alo) := List.mem_range'_1.mp hi
        have hj2 : blo ≤ j ∧ j < blo + (bhi - blo) := List.mem_range'_1.mp hj
        have hk1 := flmK_le_i a b i j ahi bhi
        have hk2 := flmK_le_j a b i j ahi bhi
        refine ⟨?_, ?_, ?_, ?_⟩
        · show alo ≤ i
          omega
        · show i + flmK a b i j ahi bhi ≤ ahi
          omega
        · show blo ≤ j
          omega
        · show j + flmK a b i j ahi bhi ≤ bhi
          omega
      · exact hbest2

/-- Blocks lie inside the given ranges and chain left to right; the empty
list additionally records that the ranges are well formed. -/
def BlocksMono (lo1 lo2 hi1 hi2 : Nat) : List (Nat × Nat × Nat) → Prop
  | [] => lo1 ≤ hi1 ∧ lo2 ≤ hi2
  | (i, j, k) :: t => lo1 ≤ i ∧ lo2 ≤ j ∧ i + k ≤ hi1 ∧ j + k ≤ hi2 ∧
      BlocksMono (i + k) (j + k) hi1 hi2 t

theorem BlocksMono_weaken {lo1 lo2 hi1 hi2 lo1p lo2p : Nat}
    (h1 : lo1p ≤ lo1) (h2 : lo2p ≤ lo2) :
    ∀ {L : List (Nat × Nat × Nat)}, BlocksMono lo1 lo2 hi1 hi2 L →
      BlocksMono lo1p lo2p hi1 hi2 L := by
  intro L h
  cases L with
  | nil => exact ⟨le_trans h1 h.1, le_trans h2 h.2⟩
  | cons t rest =>
      obtain ⟨i, j, k⟩ := t
      exact ⟨le_trans h1 h.1, le_trans h2 h.2.1, h.2.2.1, h.2.2.2.1, h.2.2.2.2⟩

theorem BlocksMono_append {m1 m2 hi1 hi2 : Nat} (hm1 : m1 ≤ hi1) (hm2 : m2 ≤ hi2) :
    ∀ {L : List (Nat × Nat × Nat)} {lo1 lo2 : Nat} {R : List (Nat × Nat × Nat)},
      BlocksMono lo1 lo2 m1 m2 L → BlocksMono m1 m2 hi1 hi2 R →
      BlocksMono lo1 lo2 hi1 hi2 (L ++ R) := by
  intro L
  induction L with
  | nil =>
      intro lo1 lo2 R hL hR
      exact BlocksMono_weaken hL.1 hL.2 hR
  | cons t rest ih =>
      intro lo1 lo2 R hL hR
      obtain ⟨i, j, k⟩ := t
      exact ⟨hL.1, hL.2.1, le_trans hL.2.2.1 hm1, le_trans hL.2.2.2.1 hm2,
        ih hL.2.2.2.2 hR⟩

theorem smRec_mono (a b : List α) :
    ∀ (fuel alo ahi blo bhi : Nat), alo ≤ ahi → blo ≤ bhi →
      BlocksMono alo blo ahi bhi (smRec a b fuel alo ahi blo bhi) := by
  intro fuel
  induction fuel with
  | zero => intro alo ahi blo bhi ha hb; exact ⟨ha, hb⟩
  | succ n ih =>
      intro alo ahi blo bhi ha hb
      have hfb := flm_bounds a b alo ahi blo bhi ha hb
      simp only [smRec]
      by_cases hk : (flm a b alo ahi blo bhi).2.2 = 0
      · rw [if_pos hk]
        exact ⟨ha, hb⟩
      · rw [if_neg hk]
        rcases hfe : flm a b alo ahi blo bhi with ⟨i0, j0, k0⟩
        rw [hfe] at hfb hk
        simp only at hfb hk ⊢
        obtain ⟨hb1, hb2, hb3, hb4⟩ := hfb
        have hleft : BlocksMono alo blo i0 j0 (smRec a b n alo i0 blo j0) :=
          ih alo i0 blo j0 (by omega) (by omega)
        have hright : BlocksMono (i0 + k0) (j0 + k0) ahi bhi
            (smRec a b n (i0 + k0) ahi (j0 + k0) bhi) :=
          ih _ _ _ _ (by omega) (by omega)
        refine BlocksMono_append (by omega) (by omega) hleft ?_
        exact ⟨le_refl _, le_refl _, by omega, by omega, hright⟩

theorem mergeBlocks_mono {hi1 hi2 : Nat} :
    ∀ (L : List (Nat × Nat × Nat)) (i1 j1 k1 : Nat),
      BlocksMono (i1 + k1) (j1 + k1) hi1 hi2 L →
      BlocksMono i1 j1 hi1 hi2 (mergeBlocks i1 j1 k1 L) := by
  intro L
  induction L with
  | nil =>
      intro i1 j1 k1 h
      obtain ⟨ha1, ha2⟩ : i1 + k1 ≤ hi1 ∧ j1 + k1 ≤ hi2 := h
      rw [mergeBlocks]
      split
      · exact ⟨by omega, by omega⟩
      · exact ⟨le_refl _, le_refl _, ha1, ha2, ha1, ha2⟩
  | cons t rest ih =>
      intro i1 j1 k1 h
      obtain ⟨i2, j2, k2⟩ := t
      obtain ⟨h1, h2, h3, h4, h5⟩ := h
      rw [mergeBlocks]
      split
      · rename_i hadj
        have : BlocksMono (i1 + (k1 + k2)) (j1 + (k1 + k2)) hi1 hi2 rest := by
          have e1 : i1 + (k1 + k2) = i2 + k2 := by omega
          have e2 : j1 + (k1 + k2) = j2 + k2 := by omega
          rw [e1, e2]
          exact h5
        exact ih i1 j1 (k1 + k2) this
      · have hrest : BlocksMono i2 j2 hi1 hi2 (mergeBlocks i2 j2 k2 rest) :=
          ih i2 j2 k2 h5
        split
        · rename_i hk1
          simp only [List.nil_append]
          exact BlocksMono_weaken (by omega) (by omega) hrest
        · simp only [List.singleton_append]
          exact ⟨le_refl _, le_refl _, by omega, by omega,
            BlocksMono_weaken (by omega) (by omega) hrest⟩

/-- The block list chains from `(i, j)` and its sentinel tail reaches exactly
`(la, lb)`. -/
def blocksChainTo (i j : Nat) : List (Nat × Nat × Nat) → Nat → Nat → Prop
  | [], la, lb => i = la ∧ j = lb
  | (ai, bj, sz) :: rest, la, lb => i ≤ ai ∧ j ≤ bj ∧ blocksChainTo (ai + sz) (bj + sz) rest la lb

theorem chainTo_of_mono {la lb : Nat} :
    ∀ (L : List (Nat × Nat × Nat)) (i j : Nat), BlocksMono i j la lb L →
      blocksChainTo i j (L ++ [(la, lb, 0)]) la lb := by
  intro L
  induction L with
  | nil =>
      intro i j h
      exact ⟨h.1, h.2, rfl, rfl⟩
  | cons t rest ih =>
      intro i j h
      obtain ⟨ai, bj, sz⟩ := t
      exact ⟨h.1, h.2.1, ih _ _ h.2.2.2.2⟩

/-- The ranges in the list are contiguous from `s`, each is well formed, and
they end exactly at `e`. -/
def spanChain (s : Nat) : List (Nat × Nat) → Nat → Prop
  | [], e => s = e
  | (x, y) :: t, e => x = s ∧ s ≤ y ∧ spanChain y t e

theorem spanChain_append {m e : Nat} :
    ∀ {L1 : List (Nat × Nat)} {s : Nat} {L2 : List (Nat × Nat)},
      spanChain s L1 m → spanChain m L2 e → spanChain s (L1 ++ L2) e := by
  intro L1
  induction L1 with
  | nil =>
      intro s L2 h1 h2
      rw [show s = m from h1]
      exact h2
  | cons t rest ih =>
      intro s L2 h1 h2
      obtain ⟨x, y⟩ := t
      exact ⟨h1.1, h1.2.1, ih h1.2.2 h2⟩

theorem opcodesGo_cover {la lb : Nat} :
    ∀ (blocks : List (Nat × Nat × Nat)) (i j : Nat), blocksChainTo i j blocks la lb →
      spanChain i ((opcodesGo i j blocks).map fun o => (o.i1, o.i2)) la ∧
      spanChain j ((opcodesGo i j blocks).map fun o => (o.j1, o.j2)) lb := by
  intro blocks
  induction blocks with
  | nil =>
      intro i j h
      exact ⟨h.1, h.2⟩
  | cons t rest ih =>
      intro i j h
      obtain ⟨ai, bj, sz⟩ := t
      obtain ⟨h1, h2, h3⟩ := h
      have hrec := ih (ai + sz) (bj + sz) h3
      rw [opcodesGo]
      constructor
      · rw [List.map_append, List.map_append]
        refine spanChain_append (m := ai + sz) (spanChain_append (m := ai) ?_ ?_) hrec.1
        · split
          · show spanChain i [(i, ai)] ai
            exact ⟨rfl, h1, rfl⟩
          · split
            · show spanChain i [(i, ai)] ai
              exact ⟨rfl, h1, rfl⟩
            · split
              · show spanChain i [(i, ai)] ai
                exact ⟨rfl, h1, rfl⟩
              · rename_i hnotr hnoti hnotj
                show i = ai
                omega
        · split
          · show spanChain ai [(ai, ai + sz)] (ai + sz)
            exact ⟨rfl, by omega, rfl⟩
          · show ai = ai + sz
            rename_i hsz
            omega
      · rw [List.map_append, List.map_append]
        refine spanChain_append (m := bj + sz) (spanChain_append (m := bj) ?_ ?_) hrec.2
        · split
          · show spanChain j [(j, bj)] bj
            exact ⟨rfl, h2, rfl⟩
          · split
            · show spanChain j [(j, bj)] bj
              exact ⟨rfl, h2, rfl⟩
            · split
              · show spanChain j [(j, bj)] bj
                exact ⟨rfl, h2, rfl⟩
              · rename_i hnotr hnoti hnotj
                show j = bj
                omega
        · split
          · show spanChain bj [(bj, bj + sz)] (bj + sz)
            exact ⟨rfl, by omega, rfl⟩
          · show bj = bj + sz
            rename_i hsz
            omega

theorem get_opcodes_cover (a b : List α) :
    spanChain 0 ((get_opcodes a b).map fun o => (o.i1, o.i2)) a.length ∧
    spanChain 0 ((get_opcodes a b).map fun o => (o.j1, o.j2)) b.length := by
  have hmono : BlocksMono 0 0 a.length b.length
      (mergeBlocks 0 0 0 (smRec a b (a.length + b.length + 1) 0 a.length 0 b.length)) :=
    mergeBlocks_mono _ 0 0 0
      (smRec_mono a b _ 0 a.length 0 b.length (Nat.zero_le _) (Nat.zero_le _))
  exact opcodesGo_cover _ 0 0 (chainTo_of_mono _ 0 0 hmono)

theorem flmK_self_full (a : List α) : flmK a a 0 0 a.length a.length = a.length := by
  rw [flmK]
  simp only [List.drop_zero, Nat.sub_zero, List.take_length]
  exact cpl_self a

theorem flmInner_keeps (a b : List α) (ahi bhi n i : Nat) :
    ∀ (js : List Nat) (best : Nat × Nat × Nat), best.2.2 = n →
      (∀ j, flmK a b i j ahi bhi ≤ n) →
      flmInner a b ahi bhi i best js = best := by
  intro js
  induction js with
  | nil => intro best _ _; rfl
  | cons j js2 ih =>
      intro best hb hbound
      rw [flmInner, List.foldl_cons]
      have hstep : (if best.2.2 < flmK a b i j ahi bhi
          then (i, j, flmK a b i j ahi bhi) else best) = best := by
        rw [if_neg]
        rw [hb]
        exact Nat.not_lt.mpr (hbound j)
      rw [hstep]
      rw [← flmInner]
      exact ih best hb hbound

theorem fold_outer_keeps (a b : List α) (ahi bhi n : Nat) (js : List Nat) :
    ∀ (is2 : List Nat) (best : Nat × Nat × Nat), best.2.2 = n →
      (∀ i j, flmK a b i j ahi bhi ≤ n) →
      is2.foldl (fun best i => flmInner a b ahi bhi i best js) best = best := by
  intro is2
  induction is2 with
  | nil => intro best _ _; rfl
  | cons i is3 ih =>
      intro best hb hbound
      rw [List.foldl_cons]
      rw [flmInner_keeps a b ahi bhi n i js best hb (hbound i)]
      exact ih best hb hbound

theorem flmInner_cons (a b : List α) (ahi bhi i j : Nat) (best : Nat × Nat × Nat)
    (js : List Nat) :
    flmInner a b ahi bhi i best (j :: js) =
      flmInner a b ahi bhi i
        (if best.2.2 < flmK a b i j ahi bhi then (i, j, flmK a b i j ahi bhi) else best) js := by
  rw [flmInner, List.foldl_cons, flmInner]

theorem flm_self (a : List α) : flm a a 0 a.length 0 a.length = (0, 0, a.length) := by
  have hbound : ∀ i j, flmK a a i j a.length a.length ≤ a.length :=
    fun i j => le_trans (flmK_le_i a a i j a.length a.length) (Nat.sub_le _ _)
  have hfull := flmK_self_full a
  rw [flm]
  rcases hn : a.length with _ | m
  · rfl
  · rw [hn] at hbound hfull
    simp only [Nat.sub_zero]
    have hsplit : List.range' 0 (m + 1) = 0 :: List.range' 1 m := rfl
    rw [hsplit, List.foldl_cons, flmInner_cons, hfull]
    rw [if_pos (show ((0, 0, 0) : Nat × Nat × Nat).2.2 < m + 1 from Nat.succ_pos m)]
    rw [flmInner_keeps a a (m + 1) (m + 1) (m + 1) 0 _ (0, 0, m + 1) rfl (hbound 0)]
    exact fold_outer_keeps a a (m + 1) (m + 1) (m + 1) _ _ (0, 0, m + 1) rfl hbound

theorem flm_empty_left (a b : List α) (alo blo bhi : Nat) :
    flm a b alo alo blo bhi = (alo, blo, 0) := by
  rw [flm, Nat.sub_self]
  rfl

theorem smRec_empty_left (a b : List α) (fuel alo blo bhi : Nat) :
    smRec a b fuel alo alo blo bhi = [] := by
  cases fuel with
  | zero => rfl
  | succ n =>
      rw [smRec, flm_empty_left]
      rfl

theorem smRec_self (a : List α) :
    smRec a a (a.length + a.length + 1) 0 a.length 0 a.length =
      if a.length = 0 then [] else [(0, 0, a.length)] := by
  rw [smRec, flm_self]
  by_cases h0 : a.length = 0
  · rw [if_pos (show ((0, 0, a.length) : Nat × Nat × Nat).2.2 = 0 from h0), if_pos h0]
  · rw [if_neg (show ¬ ((0, 0, a.length) : Nat × Nat × Nat).2.2 = 0 from h0), if_neg h0]
    show smRec a a _ 0 0 0 0 ++ (0, 0, a.length) :: smRec a a _ (0 + a.length) a.length
      (0 + a.length) a.length = [(0, 0, a.length)]
    rw [Nat.zero_add, smRec_empty_left, smRec_empty_left]
    rfl

theorem totalMatched_self (a : List α) : totalMatched a a = a.length := by
  rw [totalMatched, get_matching_blocks, smRec_self]
  by_cases h0 : a.length = 0
  · rw [if_pos h0]
    simp [mergeBlocks, h0]
  · rw [if_neg h0]
    rw [show mergeBlocks 0 0 0 [(0, 0, a.length)] =
        if 0 + 0 = 0 ∧ 0 + 0 = 0 then mergeBlocks 0 0 (0 + a.length) []
        else (if (0 : Nat) = 0 then [] else [(0, 0, 0)]) ++ mergeBlocks 0 0 a.length []
      from rfl]
    rw [if_pos ⟨rfl, rfl⟩, Nat.zero_add, mergeBlocks, if_neg h0]
    simp

theorem ratio_self (a : List α) : similarityRatio a a = 1 := by
  rw [similarityRatio]
  by_cases h0 : a.length + a.length = 0
  · rw [if_pos h0]
  · rw [if_neg h0, totalMatched_self]
    have h1 : 0 < a.length := by omega
    have h2 : (0 : ℚ) < (a.length : ℚ) := by exact_mod_cast h1
    have hne : ((a.length : ℚ) + (a.length : ℚ)) ≠ 0 := by linarith
    field_simp
    ring

end DiffEngine

/-- `ratio()` of the matcher applied to two strings as character sequences,
as in `difflib.SequenceMatcher(None, norm_tsql, norm_snow).ratio()`
(src/app.py line 337, src/application.py line 303). -/
def similarityRatioStr (x y : String) : ℚ :=
  similarityRatio x.data y.data

/-- C6 counterexample: the greedy matcher picks the earliest longest block of
its FIRST argument, so swapping the arguments can change the total matched
length.  On this pair the forward ratio is 4/20 and the reverse ratio is
6/20. -/
theorem C6_counterexample :
    similarityRatioStr "xyuvwabc" "abmnopqrscxy" ≠
      similarityRatioStr "abmnopqrscxy" "xyuvwabc" := by
  have h1 : totalMatched "xyuvwabc".data "abmnopqrscxy".data = 2 := by decide
  have h2 : totalMatched "abmnopqrscxy".data "xyuvwabc".data = 3 := by decide
  have hl1 : "xyuvwabc".data.length = 8 := by decide
  have hl2 : "abmnopqrscxy".data.length = 12 := by decide
  rw [similarityRatioStr, similarityRatioStr, similarityRatio, similarityRatio]
  rw [h1, h2, hl1, hl2]
  norm_num

/-- C6 (amended): the similarity ratio is not symmetric in general; the
restricted symmetry that does hold is reflexivity: comparing any text with
itself yields ratio 1 in either order. -/
theorem C6_ratio_reflexive (x : String) : similarityRatioStr x x = 1 :=
  ratio_self _

/-- Python `str.splitlines()` restricted to the line breaks `\r\n`, `\r` and
`\n`; no trailing empty line is produced.  The accumulator holds the current
line reversed. -/
def splitlinesAux : List Char → List Char → List (List Char)
  | cur, [] => if cur = [] then [] else [cur.reverse]
  | cur, [c] =>
      if c = '\r' ∨ c = '\n' then [cur.reverse] else [(c :: cur).reverse]
  | cur, c :: d :: rest =>
      if c = '\r' then
        (if d = '\n' then cur.reverse :: splitlinesAux [] rest
         else cur.reverse :: splitlinesAux [] (d :: rest))
      else if c = '\n' then cur.reverse :: splitlinesAux [] (d :: rest)
      else splitlinesAux (c :: cur) (d :: rest)

/-- `text.splitlines()` as used by `side_by_side_html` (src/app.py lines
101-102, src/application.py lines 163-164). -/
def pySplitlines (s : String) : List String :=
  (splitlinesAux [] s.data).map fun l => ⟨l⟩

/-- C5: the opcode sequence of the line-level diff partitions both line
lists exhaustively and in order: the concatenated i-ranges are contiguous,
non-overlapping and cover exactly `[0, len(lines A))`, and likewise the
j-ranges cover `[0, len(lines B))`. -/
theorem C5_opcodes_partition (A B : String) :
    spanChain 0 ((get_opcodes (pySplitlines A) (pySplitlines B)).map fun o => (o.i1, o.i2))
      (pySplitlines A).length ∧
    spanChain 0 ((get_opcodes (pySplitlines A) (pySplitlines B)).map fun o => (o.j1, o.j2))
      (pySplitlines B).length :=
  get_opcodes_cover _ _

end ExpCompare
